import Mathlib

/-!
# alist stream core: `internal/stream/stream.go` and `internal/conf/obfs.go`

A shallow embedding of `FileStream`, `SeekableStream` and the obfuscation
helper, followed by the properties proved about them.

Conventions of the embedding.
* Go `int64` values are `Int`; every `int64` addition or subtraction that the
  source performs is wrapped with `wrap64`.
* A method that mutates its receiver returns a `Step`: the returned value (or
  error), the receiver afterwards, and the calls made to collaborators outside
  the two source files (`Event`).
* Outcomes the environment decides (does the temp-file allocator succeed, what
  does `os.RemoveAll` return, what does a remote closer answer) are arguments.
-/

namespace Alist

/-! ## Values shared by both source files -/

abbrev Byte := UInt8

/-- Go `error` values, as far as the two source files build or inspect them. `crash` is a
runtime panic and `hang` a call that never returns; neither is an `error` value in Go, both
are ways in which a call fails to produce its result. -/
inductive Err where
  | eof
  | text (s : String)
  | wrap (inner : Err) (s : String)
  | join (es : List Err)
  | crash (s : String)
  | hang
deriving Repr

/-- Go `errors.Join`: nil when every argument is nil, otherwise an error holding the non-nil
arguments in order. -/
def errorsJoin (errs : List (Option Err)) : Option Err :=
  match errs.filterMap (fun e => e) with
  | [] => none
  | e :: es => some (Err.join (e :: es))

/-- The error tree of `e` reaches `t`: `e` is `t`, or wraps or joins an error that reaches `t`
(what Go `errors.Is` walks). -/
inductive Err.Contains : Err → Err → Prop where
  | self (e : Err) : Err.Contains e e
  | wrap {inner t : Err} (s : String) : Err.Contains inner t → Err.Contains (Err.wrap inner s) t
  | join {es : List Err} {e t : Err} : e ∈ es → Err.Contains e t → Err.Contains (Err.join es) t

/-- Package `errs`, `NewErr(err, format, args...)`: wraps `err` with a message. -/
def NewErr (err : Err) (msg : String) : Err := Err.wrap err msg

/-- Two's-complement wrap-around of an `int64` result. -/
def wrap64 (x : Int) : Int := (x + 2 ^ 63) % 2 ^ 64 - 2 ^ 63

def maxInt64 : Int := 2 ^ 63 - 1

/-- Type `http_range.Range`. -/
structure Range where
  Start : Int
  Length : Int
deriving DecidableEq, Repr

/-- A `model.File` / `*os.File`: a named random-access file. `offset` is the read offset of the
descriptor at the moment the stream receives it. -/
structure File where
  name : String
  content : List Byte
  offset : Nat := 0
deriving DecidableEq, Repr

/-- Go `*bytes.Reader`: the bytes `s` and the read index `i`. -/
structure BytesReader where
  s : List Byte
  i : Nat
deriving DecidableEq, Repr

/-- Go `(*bytes.Reader).Len`: the number of unread bytes. -/
def BytesReader.Len (b : BytesReader) : Int := ((b.s.length - b.i : Nat) : Int)

/-- The dynamic value of the `io.Reader` field of a `FileStream`.
* `nil`: the nil interface;
* `source rest`: a sequential reader that is not a `model.File`, with `rest` still to come;
* `file f pos`: a `model.File` read sequentially at offset `pos`;
* `multi inner`: `io.MultiReader(f.peekBuff, inner)`, which shares the `*bytes.Reader` held
  in the stream's `peekBuff` field. -/
inductive Reader where
  | nil
  | source (rest : List Byte)
  | file (f : File) (pos : Nat)
  | multi (inner : Reader)
deriving DecidableEq, Repr

/-- The type assertion `r.(model.File)`. -/
def Reader.asFile : Reader → Option File
  | Reader.file f _ => some f
  | _ => none

/-- What a run of sequential reads returned: the bytes obtained, why it stopped short (`none`
when it obtained all it asked for, or reached a clean end of input when draining), and the
reader and shared peek buffer afterwards. -/
structure Pulled where
  data : List Byte
  stop : Option Err
  reader : Reader
  peek : Option BytesReader
deriving Repr

def nilReaderCrash : Err := Err.crash "invalid memory address or nil pointer dereference"

/-- The reads `io.CopyN(dst, r, k)` performs on `r`: exactly `k` bytes are taken when `r` has
them (and `r` is not touched when `k = 0`); otherwise everything left is taken and the copy
stops with `io.EOF`, or with a nil dereference when it runs into a nil reader. -/
def Reader.pull : Reader → Option BytesReader → Nat → Pulled
  | Reader.nil, pk, k =>
      if k = 0 then ⟨[], none, Reader.nil, pk⟩ else ⟨[], some nilReaderCrash, Reader.nil, pk⟩
  | Reader.source rest, pk, k =>
      if k ≤ rest.length then ⟨rest.take k, none, Reader.source (rest.drop k), pk⟩
      else ⟨rest, some Err.eof, Reader.source [], pk⟩
  | Reader.file f pos, pk, k =>
      let av := f.content.drop pos
      if k ≤ av.length then ⟨av.take k, none, Reader.file f (pos + k), pk⟩
      else ⟨av, some Err.eof, Reader.file f (pos + av.length), pk⟩
  | Reader.multi inner, none, k =>
      if k = 0 then ⟨[], none, Reader.multi inner, none⟩
      else ⟨[], some nilReaderCrash, Reader.multi inner, none⟩
  | Reader.multi inner, some b, k =>
      let av := b.s.drop b.i
      if k ≤ av.length then ⟨av.take k, none, Reader.multi inner, some ⟨b.s, b.i + k⟩⟩
      else
        let r := Reader.pull inner (some ⟨b.s, b.i + av.length⟩) (k - av.length)
        ⟨av ++ r.data, r.stop, Reader.multi r.reader, r.peek⟩

/-- Reading `r` until it reports end of input (what `io.Copy` does). -/
def Reader.drain : Reader → Option BytesReader → Pulled
  | Reader.nil, pk => ⟨[], some nilReaderCrash, Reader.nil, pk⟩
  | Reader.source rest, pk => ⟨rest, none, Reader.source [], pk⟩
  | Reader.file f pos, pk =>
      ⟨f.content.drop pos, none, Reader.file f (pos + (f.content.drop pos).length), pk⟩
  | Reader.multi inner, none => ⟨[], some nilReaderCrash, Reader.multi inner, none⟩
  | Reader.multi inner, some b =>
      let av := b.s.drop b.i
      let r := Reader.drain inner (some ⟨b.s, b.i + av.length⟩)
      ⟨av ++ r.data, r.stop, Reader.multi r.reader, r.peek⟩

/-- The `io.ReaderAt` a section reader is built over. -/
inductive ReaderAt where
  | bytes (s : List Byte)
  | osFile (f : Option File)
  | mfile (f : File)
deriving DecidableEq, Repr

/-- The reader a range read hands back: an `io.SectionReader` (`io.NewSectionReader(r, off, n)`)
or the body a remote closer answered with, together with the range it was asked for. -/
inductive RangeReader where
  | sect (r : ReaderAt) (off n : Int)
  | remote (closer : String) (asked : Range) (body : List Byte)
deriving DecidableEq, Repr

/-- The `limit` field computed by `io.NewSectionReader(r, off, n)`. -/
def sectionLimit (off n : Int) : Int :=
  if off ≤ wrap64 (maxInt64 - n) then wrap64 (n + off) else maxInt64

/-- Reading `ReadAt` from offset `off ≥ 0` up to `limit`. -/
def ReaderAt.readRange : ReaderAt → Int → Int → Except Err (List Byte)
  | ReaderAt.bytes s, off, limit => Except.ok ((s.drop off.toNat).take (limit - off).toNat)
  | ReaderAt.osFile none, _, _ => Except.error (Err.text "invalid argument")
  | ReaderAt.osFile (some f), off, limit =>
      Except.ok ((f.content.drop off.toNat).take (limit - off).toNat)
  | ReaderAt.mfile f, off, limit =>
      Except.ok ((f.content.drop off.toNat).take (limit - off).toNat)

/-- Everything the returned reader yields when it is read to its end: the bytes, or the error that
stops the read. A section reader at or past its limit yields nothing; a negative offset is
refused by `ReadAt`; otherwise it yields the bytes from `off` up to `limit`, or up to the end of
the underlying data when that comes first. -/
def RangeReader.readAll : RangeReader → Except Err (List Byte)
  | RangeReader.remote _ _ body => Except.ok body
  | RangeReader.sect r off n =>
      let limit := sectionLimit off n
      if off ≥ limit then Except.ok []
      else if off < 0 then Except.error (Err.text "negative offset")
      else r.readRange off limit

/-- Calls made to collaborators outside the two source files. -/
inductive Event where
  | createTempFile (made : Option File)
  | rangeRead (closer : String) (r : Range)
  | getRangeReadCloserFromLink (size : Int) (url : String)
  | close (resource : String)
  | removeAll (name : String)
deriving DecidableEq, Repr

/-- The result of a call on a stream: value or error, the stream afterwards, collaborator calls. -/
structure Step (σ α : Type) where
  out : Except Err α
  st : σ
  log : List Event

/-- What the environment lets the temp-file allocator do on one call: create the file under
`name`, or fail with `e` after having read `consumed` bytes of its input. -/
inductive AllocOutcome where
  | created (name : String)
  | failed (e : Err) (consumed : Nat)

/-- Modelled from the spec: `utils.CreateTempFile(r, size)`, the temp-file allocator of package
`pkg/utils`, which is not among the source files. "Given a reader and a declared total size,
returns a new local random-access file containing the reader's full contents, or fails." The
file is handed back positioned at its start, which the stream relies on when it makes the file
its live reader ("all further reads (sequential or range) are served from it"). A reader that
breaks before its end leaves no full contents to store, so the allocator fails with its error. -/
def CreateTempFile (o : AllocOutcome) (r : Reader) (pk : Option BytesReader) (_size : Int) :
    Except Err File × Reader × Option BytesReader :=
  match o with
  | AllocOutcome.failed e consumed =>
      let p := r.pull pk consumed
      (Except.error e, p.reader, p.peek)
  | AllocOutcome.created name =>
      let d := r.drain pk
      match d.stop with
      | some e => (Except.error e, d.reader, d.peek)
      | none => (Except.ok ⟨name, d.data, 0⟩, d.reader, d.peek)

/-- Modelled from the spec: `utils.Closers`, the closer registry of package `pkg/utils`, which is
not among the source files: "an ordered collection supporting add closable and close all,
aggregating errors". A registered resource is kept by name. -/
abbrev Closers := List String

/-- `Closers.Add`. -/
def Closers.Add (c : Closers) (resource : String) : Closers := c ++ [resource]

/-- `Closers.Close`: closes every registered resource in order and joins the errors; `closeOf`
is the outcome of closing each resource. -/
def Closers.Close (closeOf : String → Option Err) (c : Closers) : Option Err × List Event :=
  (errorsJoin (c.map closeOf), c.map Event.close)

/-! ## `FileStream` -/

/-- The `FileStream` struct. `size` and `name` are `Obj.GetSize()` and `Obj.GetName()`. -/
structure FileStream where
  size : Int
  name : String
  reader : Reader
  Mimetype : String
  WebPutAsTask : Bool
  closers : Closers
  tmpFile : Option File
  peekBuff : Option BytesReader
deriving DecidableEq, Repr

def FileStream.GetMimetype (f : FileStream) : String := f.Mimetype

def FileStream.NeedStore (f : FileStream) : Bool := f.WebPutAsTask

/-- `FileStream.Close`. `closeOf` and `removeAll` are the outcomes of closing a registered
resource and of `os.RemoveAll` on a path. Returns the error and the calls made. -/
def FileStream.Close (closeOf : String → Option Err) (removeAll : String → Option Err)
    (f : FileStream) : Option Err × List Event :=
  let c := Closers.Close closeOf f.closers
  let err1 := c.1
  match f.tmpFile with
  | some t =>
      let err2 := (removeAll t.name).map
        (fun e => NewErr e ("failed to remove tmpFile [" ++ t.name ++ "]"))
      (errorsJoin [err1, err2], c.2 ++ [Event.removeAll t.name])
  | none => (errorsJoin [err1, none], c.2)

/-- `FileStream.CacheFullInTempFile`. -/
def FileStream.CacheFullInTempFile (a : AllocOutcome) (f : FileStream) : Step FileStream File :=
  match f.tmpFile with
  | some t => ⟨Except.ok t, f, []⟩
  | none =>
    match f.reader.asFile with
    | some file => ⟨Except.ok file, f, []⟩
    | none =>
      match CreateTempFile a f.reader f.peekBuff f.size with
      | (Except.error err, r, pk) =>
          ⟨Except.error err, { f with reader := r, peekBuff := pk }, [Event.createTempFile none]⟩
      | (Except.ok tmpF, _, pk) =>
          ⟨Except.ok tmpF,
           { f with tmpFile := some tmpF, reader := Reader.file tmpF tmpF.offset, peekBuff := pk },
           [Event.createTempFile (some tmpF)]⟩

/-- The first statement of both `RangeRead` methods:
`if httpRange.Length == -1 { httpRange.Length = GetSize() }`. -/
def resolveLength (size : Int) (httpRange : Range) : Range :=
  if httpRange.Length = -1 then { httpRange with Length := size } else httpRange

def InMemoryBufMaxSize : Int := 10

def InMemoryBufMaxSizeBytes : Int := InMemoryBufMaxSize * 1024 * 1024

/-- `FileStream.RangeRead`. -/
def FileStream.RangeRead (a : AllocOutcome) (f : FileStream) (httpRange : Range) :
    Step FileStream RangeReader :=
  let httpRange : Range := resolveLength f.size httpRange
  match f.peekBuff.filter (fun pb => decide (httpRange.Start < pb.Len ∧
      wrap64 (wrap64 (httpRange.Start + httpRange.Length) - 1) < pb.Len)) with
  | some pb =>
    ⟨Except.ok (RangeReader.sect (ReaderAt.bytes pb.s) httpRange.Start httpRange.Length), f, []⟩
  | none =>
  if httpRange.Start = 0 ∧ httpRange.Length ≤ InMemoryBufMaxSizeBytes ∧ f.peekBuff = none then
    let bufSize := min httpRange.Length f.size
    if bufSize < 0 then ⟨Except.error (Err.crash "makeslice: cap out of range"), f, []⟩
    else
      let p := f.reader.pull f.peekBuff bufSize.toNat
      match p.stop with
      | some err => ⟨Except.error err, { f with reader := p.reader, peekBuff := p.peek }, []⟩
      | none =>
        if (p.data.length : Int) ≠ bufSize then
          ⟨Except.error (Err.text "stream RangeRead did not get all data in peek"),
           { f with reader := p.reader, peekBuff := p.peek }, []⟩
        else
          ⟨Except.ok (RangeReader.sect (ReaderAt.bytes p.data) httpRange.Start httpRange.Length),
           { f with peekBuff := some ⟨p.data, 0⟩, reader := Reader.multi p.reader }, []⟩
  else
    match f.tmpFile with
    | some t =>
        ⟨Except.ok (RangeReader.sect (ReaderAt.osFile (some t)) httpRange.Start httpRange.Length),
         f, []⟩
    | none =>
      let c := f.CacheFullInTempFile a
      match c.out with
      | Except.error err => ⟨Except.error err, c.st, c.log⟩
      | Except.ok _ =>
        ⟨Except.ok (RangeReader.sect (ReaderAt.osFile c.st.tmpFile)
           httpRange.Start httpRange.Length), c.st, c.log⟩

/-! ## `SeekableStream` -/

/-- Type `model.RangeReadCloserIF`: a remote range-read-capable closer. `respond r` is what its
`RangeRead(ctx, r)` answers: the bytes of the body it returns, or an error. -/
structure RangeReadCloser where
  name : String
  respond : Range → Except Err (List Byte)

/-- Type `model.Link`, the fields the stream core reads. -/
structure Link where
  URL : String
  MFile : Option File
  RangeReadCloser : Option RangeReadCloser

/-- The `SeekableStream` struct; the embedded `FileStream` is the parent structure. -/
structure SeekableStream extends FileStream where
  Link : Option Link
  rangeReadCloser : Option RangeReadCloser
  mFile : Option File

def illegalSeekableStream : Err := Err.text "illegal seekableStream"

/-- `NewSeekableStream`. `GetMimeType` is `utils.GetMimeType`; `GetRangeReadCloserFromLink` is
the function of that name in this package (file `util.go`), which builds a closer from the
link's URL. -/
def NewSeekableStream (GetMimeType : String → String)
    (GetRangeReadCloserFromLink : Int → Link → Except Err RangeReadCloser)
    (fs : FileStream) (link : Option Link) : Except Err SeekableStream × List Event :=
  let fs : FileStream :=
    if fs.Mimetype.length = 0 then { fs with Mimetype := GetMimeType fs.name } else fs
  let ss : SeekableStream :=
    { toFileStream := fs, Link := link, rangeReadCloser := none, mFile := none }
  match ss.reader.asFile with
  | some result =>
      (Except.ok { ss with mFile := some result, closers := Closers.Add ss.closers result.name },
       [])
  | none =>
    match ss.Link with
    | some l =>
      match l.MFile with
      | some m =>
          (Except.ok { ss with mFile := some m, reader := Reader.file m m.offset,
                               closers := Closers.Add ss.closers m.name }, [])
      | none =>
        match l.RangeReadCloser with
        | some rrc => (Except.ok { ss with rangeReadCloser := some rrc }, [])
        | none =>
          if l.URL.length > 0 then
            match GetRangeReadCloserFromLink ss.size l with
            | Except.error err =>
                (Except.error err, [Event.getRangeReadCloserFromLink ss.size l.URL])
            | Except.ok rrc =>
                (Except.ok { ss with rangeReadCloser := some rrc },
                 [Event.getRangeReadCloserFromLink ss.size l.URL])
          else (Except.error illegalSeekableStream, [])
    | none => (Except.error illegalSeekableStream, [])

/-- `SeekableStream.RangeRead`. -/
def SeekableStream.RangeRead (ss : SeekableStream) (httpRange : Range) :
    Step SeekableStream RangeReader :=
  let httpRange : Range := resolveLength ss.size httpRange
  match ss.mFile with
  | some m =>
      ⟨Except.ok (RangeReader.sect (ReaderAt.mfile m) httpRange.Start httpRange.Length), ss, []⟩
  | none =>
    match ss.tmpFile with
    | some t =>
        ⟨Except.ok (RangeReader.sect (ReaderAt.osFile (some t)) httpRange.Start httpRange.Length),
         ss, []⟩
    | none =>
      match ss.rangeReadCloser with
      | some rrc =>
        match rrc.respond httpRange with
        | Except.error err => ⟨Except.error err, ss, [Event.rangeRead rrc.name httpRange]⟩
        | Except.ok rc =>
            ⟨Except.ok (RangeReader.remote rrc.name httpRange rc), ss,
             [Event.rangeRead rrc.name httpRange]⟩
      | none => ⟨Except.error (Err.text "can't find mFile or rangeReadCloser"), ss, []⟩

/-- One call `r.Read(p)` with `len(p) = n` on the live reader: the bytes read and the error, then
the reader and the shared peek buffer afterwards. -/
def Reader.Read : Reader → Option BytesReader → Nat →
    (List Byte × Option Err) × Reader × Option BytesReader
  | Reader.nil, pk, _ => (([], some nilReaderCrash), Reader.nil, pk)
  | Reader.source rest, pk, n =>
      if rest = [] then (([], some Err.eof), Reader.source [], pk)
      else ((rest.take n, none), Reader.source (rest.drop n), pk)
  | Reader.file f pos, pk, n =>
      let av := f.content.drop pos
      if n = 0 then (([], none), Reader.file f pos, pk)
      else if av = [] then (([], some Err.eof), Reader.file f pos, pk)
      else ((av.take n, none), Reader.file f (pos + (av.take n).length), pk)
  | Reader.multi inner, none, _ => (([], some nilReaderCrash), Reader.multi inner, none)
  | Reader.multi inner, some b, n =>
      let av := b.s.drop b.i
      if av = [] then
        let r := Reader.Read inner (some b) n
        (r.1, Reader.multi r.2.1, r.2.2)
      else ((av.take n, none), Reader.multi inner, some ⟨b.s, b.i + (av.take n).length⟩)

/-- The result of a sequential `Read`: Go returns the byte count and the error side by side. -/
structure ReadStep (σ : Type) where
  data : List Byte
  err : Option Err
  st : σ
  log : List Event

/-- The first block of `SeekableStream.Read` (`if ss.Reader == nil ...`): the lazy acquisition
of the full-stream reader. `none` when `Read` goes on to `ss.Reader.Read(p)`, otherwise the
pair `Read` returns at once. -/
def SeekableStream.acquire (ss : SeekableStream) :
    Option (Option Err) × SeekableStream × List Event :=
  if ss.reader = Reader.nil then
    match ss.rangeReadCloser with
    | none => (some (some illegalSeekableStream), ss, [])
    | some rrc =>
      match rrc.respond ⟨0, -1⟩ with
      | Except.error _ => (some none, ss, [Event.rangeRead rrc.name ⟨0, -1⟩])
      | Except.ok rc =>
          (none, { ss with reader := Reader.source rc, closers := Closers.Add ss.closers rrc.name },
           [Event.rangeRead rrc.name ⟨0, -1⟩])
  else (none, ss, [])

/-- `SeekableStream.Read(p)` with `len(p) = n`. -/
def SeekableStream.Read (ss : SeekableStream) (n : Nat) : ReadStep SeekableStream :=
  match ss.acquire with
  | (some early, ss1, log) => ⟨[], early, ss1, log⟩
  | (none, ss1, log) =>
      let r := ss1.reader.Read ss1.peekBuff n
      ⟨r.1.1, r.1.2, { ss1 with reader := r.2.1, peekBuff := r.2.2 }, log⟩

/-- `SeekableStream.CacheFullInTempFile`. The allocator reads the stream through
`SeekableStream.Read`: the first read acquires the live reader; a `Read` that keeps returning
`(0, nil)` never lets the copy end (`Err.hang`), and an error from `Read` fails the allocator. -/
def SeekableStream.CacheFullInTempFile (a : AllocOutcome) (ss : SeekableStream) :
    Step SeekableStream File :=
  match ss.tmpFile with
  | some t => ⟨Except.ok t, ss, []⟩
  | none =>
    match ss.mFile with
    | some m => ⟨Except.ok m, ss, []⟩
    | none =>
      match a with
      | AllocOutcome.failed e 0 => ⟨Except.error e, ss, [Event.createTempFile none]⟩
      | _ =>
        match ss.acquire with
        | (some (some err), ss1, log) =>
            ⟨Except.error err, ss1, log ++ [Event.createTempFile none]⟩
        | (some none, ss1, log) =>
            ⟨Except.error (match a with
               | AllocOutcome.failed e _ => e
               | AllocOutcome.created _ => Err.hang), ss1, log ++ [Event.createTempFile none]⟩
        | (none, ss1, log) =>
          match CreateTempFile a ss1.reader ss1.peekBuff ss1.size with
          | (Except.error err, r, pk) =>
              ⟨Except.error err, { ss1 with reader := r, peekBuff := pk },
               log ++ [Event.createTempFile none]⟩
          | (Except.ok tmpF, _, pk) =>
              ⟨Except.ok tmpF,
               { ss1 with tmpFile := some tmpF, reader := Reader.file tmpF tmpF.offset,
                          peekBuff := pk },
               log ++ [Event.createTempFile (some tmpF)]⟩

/-! ## `internal/conf/obfs.go` -/

/-- A Go `string`: a sequence of bytes. -/
abbrev GoString := List Byte

/-- The constant `obfuscatedPrefix = "___Obfuscated___"`, as its sixteen ASCII bytes. -/
def obfuscatedPrefix : GoString :=
  [95, 95, 95, 79, 98, 102, 117, 115, 99, 97, 116, 101, 100, 95, 95, 95]

/-- Go `strings.HasPrefix`. -/
def HasPrefix (s pre : GoString) : Bool :=
  decide (pre.length ≤ s.length ∧ s.take pre.length = pre)

/-- Go `strings.CutPrefix`. -/
def CutPrefix (s pre : GoString) : GoString × Bool :=
  if HasPrefix s pre then (s.drop pre.length, true) else (s, false)

/-- `Obfuscate`; `MustObscure` is `obscure.MustObscure` of the rclone library. -/
def Obfuscate (MustObscure : GoString → GoString) (str : GoString) : GoString :=
  let temp := str
  if !HasPrefix temp obfuscatedPrefix then obfuscatedPrefix ++ MustObscure temp else temp

/-- `Revel`; `MustReveal` is `obscure.MustReveal` of the rclone library. -/
def Revel (MustReveal : GoString → GoString) (str : GoString) : GoString :=
  let temp := str
  if HasPrefix temp obfuscatedPrefix then MustReveal (CutPrefix temp obfuscatedPrefix).1 else temp

/-! ## Concrete streams used to exercise the definitions -/

/-- A 10 MiB stream with no live reader, to be backed by a remote closer. -/
def remoteBase : FileStream :=
  { size := 10485760, name := "movie.mkv", reader := Reader.nil, Mimetype := "video/x-matroska",
    WebPutAsTask := false, closers := [], tmpFile := none, peekBuff := none }

/-- A remote closer that answers every range with an empty body. -/
def quietCloser : RangeReadCloser := { name := "remote", respond := fun _ => Except.ok [] }

/-- The stream `remoteBase` backed only by `quietCloser`. -/
def remoteStream : SeekableStream :=
  { toFileStream := remoteBase, Link := none, rangeReadCloser := some quietCloser, mFile := none }

/-- A stream over a three-byte sequential source. -/
def smallStream : FileStream :=
  { size := 3, name := "a.bin", reader := Reader.source [10, 20, 30], Mimetype := "",
    WebPutAsTask := false, closers := ["body"], tmpFile := none, peekBuff := none }

/-- A stream that has a temp file and one registered resource. -/
def spooledStream : FileStream :=
  { smallStream with tmpFile := some ⟨"/tmp/file-1", [10, 20, 30], 0⟩,
                     reader := Reader.file ⟨"/tmp/file-1", [10, 20, 30], 0⟩ 0 }

/-- The stream `NewSeekableStream` starts from: the given `FileStream` with its MIME type filled
in, no closer and no random-access file yet. -/
def seekableSeed (GetMimeType : String → String) (fs : FileStream) (link : Option Link) :
    SeekableStream :=
  { toFileStream :=
      if fs.Mimetype.length = 0 then { fs with Mimetype := GetMimeType fs.name } else fs,
    Link := link, rangeReadCloser := none, mFile := none }

/-- A link that carries both a ready-made random-access file and a URL. -/
def linkBoth : Link :=
  { URL := "http://host/a.bin", MFile := some ⟨"mapped", [10, 20, 30], 0⟩, RangeReadCloser := none }

/-- The guard of the first branch of `FileStream.RangeRead`, for a peek buffer `pb`:
`Start < Len && Start+Length-1 < Len`. -/
def peekHit (pb : BytesReader) (rr : Range) : Prop :=
  rr.Start < pb.Len ∧ wrap64 (wrap64 (rr.Start + rr.Length) - 1) < pb.Len

instance (pb : BytesReader) (rr : Range) : Decidable (peekHit pb rr) := by
  unfold peekHit; infer_instance

/-- A run of `RangeRead` calls that all succeed, each with its own allocator outcome: the stream
after the last call, or `none` when some call fails. -/
def FileStream.rangeReads : FileStream → List (AllocOutcome × Range) → Option FileStream
  | f, [] => some f
  | f, (a, r) :: rest =>
      match (f.RangeRead a r).out with
      | Except.ok _ => FileStream.rangeReads (f.RangeRead a r).st rest
      | Except.error _ => none

/-- The states a stream over a sequential source with content `c` passes through while only
successful range reads are made on it: untouched; peeked (the cache `p` unread, the source
holding the rest); spooled to a temp file holding `c`; spooled with a peek cache beside it. -/
def Coherent (c : List Byte) (f : FileStream) : Prop :=
  f.size = c.length ∧
  ((f.reader = Reader.source c ∧ f.peekBuff = none ∧ f.tmpFile = none) ∨
   (∃ p r, f.reader = Reader.multi (Reader.source r) ∧ f.peekBuff = some ⟨p, 0⟩ ∧
      f.tmpFile = none ∧ p ++ r = c) ∨
   (∃ t, f.reader = Reader.file t 0 ∧ f.peekBuff = none ∧ f.tmpFile = some t ∧ t.content = c) ∨
   (∃ t pb, f.tmpFile = some t ∧ t.content = c ∧ f.peekBuff = some pb ∧ pb.s <+: c))

/-- The stream `smallStream` after a peek of its first two bytes. -/
def smallPeeked : FileStream :=
  { smallStream with peekBuff := some ⟨[10, 20], 0⟩, reader := Reader.multi (Reader.source [30]) }

/-- A run of `RangeRead` calls each of which is answered from an in-memory byte section (the
peek cache): the stream after the last call, or `none` when some call is answered otherwise. -/
def FileStream.peekReads : FileStream → List (AllocOutcome × Range) → Option FileStream
  | f, [] => some f
  | f, (a, r) :: rest =>
      match (f.RangeRead a r).out with
      | Except.ok (RangeReader.sect (ReaderAt.bytes _) _ _) =>
          FileStream.peekReads (f.RangeRead a r).st rest
      | _ => none

/-- A call on a `FileStream`, with the allocator outcome the environment has in store for it. -/
inductive FsCall where
  | cacheFull (a : AllocOutcome)
  | rangeRead (a : AllocOutcome) (r : Range)

/-- The stream and the collaborator calls after one call. -/
def FileStream.call (f : FileStream) : FsCall → FileStream × List Event
  | FsCall.cacheFull a => ((f.CacheFullInTempFile a).st, (f.CacheFullInTempFile a).log)
  | FsCall.rangeRead a r => ((f.RangeRead a r).st, (f.RangeRead a r).log)

/-- The stream after a sequence of calls, and all collaborator calls made on the way. -/
def FileStream.run : FileStream → List FsCall → FileStream × List Event
  | f, [] => (f, [])
  | f, c :: rest =>
      ((FileStream.run (f.call c).1 rest).1, (f.call c).2 ++ (FileStream.run (f.call c).1 rest).2)

/-- A call on a `SeekableStream`. -/
inductive SsCall where
  | cacheFull (a : AllocOutcome)
  | rangeRead (r : Range)

def SeekableStream.call (ss : SeekableStream) : SsCall → SeekableStream × List Event
  | SsCall.cacheFull a => ((ss.CacheFullInTempFile a).st, (ss.CacheFullInTempFile a).log)
  | SsCall.rangeRead r => ((ss.RangeRead r).st, (ss.RangeRead r).log)

def SeekableStream.run : SeekableStream → List SsCall → SeekableStream × List Event
  | ss, [] => (ss, [])
  | ss, c :: rest =>
      ((SeekableStream.run (ss.call c).1 rest).1,
       (ss.call c).2 ++ (SeekableStream.run (ss.call c).1 rest).2)

/-- A successful call of the temp-file allocator. -/
def Event.isAllocation : Event → Bool
  | Event.createTempFile (some _) => true
  | _ => false

/-- How many times the temp-file allocator succeeded in a log. -/
def allocations (log : List Event) : Nat := (log.filter Event.isAllocation).length

/-- The file an upload hands over as its own reader. -/
def uploadFile : File := ⟨"upload-42", [10, 20, 30], 0⟩

/-- A `FileStream` whose reader is itself a random-access file. -/
def fileBacked : FileStream :=
  { size := 3, name := "a.bin", reader := Reader.file uploadFile 0, Mimetype := "",
    WebPutAsTask := false, closers := [], tmpFile := none, peekBuff := none }

/-- `FileStream.Read(p)` with `len(p) = n`: the `Read` promoted from the embedded `io.Reader`,
a sequential read of the live reader. -/
def FileStream.Read (f : FileStream) (n : Nat) : ReadStep FileStream :=
  let r := f.reader.Read f.peekBuff n
  ⟨r.1.1, r.1.2, { f with reader := r.2.1, peekBuff := r.2.2 }, []⟩

/-- Anything a caller can do with a `FileStream`: one of the two caching calls, a sequential
read, or `Close` (with the outcomes the environment has in store for it). -/
inductive FsOp where
  | call (c : FsCall)
  | read (n : Nat)
  | close (closeOf removeAll : String → Option Err)

/-- The stream and the collaborator calls after one operation. `Close` assigns no field. -/
def FileStream.op (f : FileStream) : FsOp → FileStream × List Event
  | FsOp.call c => f.call c
  | FsOp.read n => ((f.Read n).st, (f.Read n).log)
  | FsOp.close closeOf removeAll => (f, (f.Close closeOf removeAll).2)

/-- The stream after a sequence of operations, and all collaborator calls made on the way. -/
def FileStream.ops : FileStream → List FsOp → FileStream × List Event
  | f, [] => (f, [])
  | f, o :: rest =>
      ((FileStream.ops (f.op o).1 rest).1, (f.op o).2 ++ (FileStream.ops (f.op o).1 rest).2)

/-- The live reader reads from the temp file `T` only: it is `T` itself, or the
`io.MultiReader` of the peek buffer followed by `T`. -/
def Reader.overTemp (T : File) : Reader → Prop
  | Reader.file t _ => t = T
  | Reader.multi (Reader.file t _) => t = T
  | _ => False

/-- An operation on a `SeekableStream`: a caching call, a range read or a sequential read. -/
inductive SsOp where
  | cacheFull (a : AllocOutcome)
  | rangeRead (r : Range)
  | read (n : Nat)

/-- The stream after one operation. -/
def SeekableStream.op (ss : SeekableStream) : SsOp → SeekableStream
  | SsOp.cacheFull a => (ss.CacheFullInTempFile a).st
  | SsOp.rangeRead r => (ss.RangeRead r).st
  | SsOp.read n => (ss.Read n).st

/-- The stream after a sequence of operations. -/
def SeekableStream.ops : SeekableStream → List SsOp → SeekableStream
  | ss, [] => ss
  | ss, o :: rest => SeekableStream.ops (ss.op o) rest

/-- The error of the last statement of `SeekableStream.RangeRead`. -/
def noBackingSource : Err := Err.text "can't find mFile or rangeReadCloser"

/-- A remote closer whose `RangeRead` always fails. -/
def brokenCloser : RangeReadCloser :=
  { name := "remote", respond := fun _ => Except.error (Err.text "connection refused") }

/-- The stream `remoteBase` backed only by `brokenCloser`. -/
def brokenStream : SeekableStream :=
  { toFileStream := remoteBase, Link := none, rangeReadCloser := some brokenCloser, mFile := none }

/-- The stream `smallStream` after the range `{1, 1}` has materialized it. -/
def smallSpooled : FileStream :=
  (smallStream.RangeRead (AllocOutcome.created "/tmp/file-1") ⟨1, 1⟩).st

/-- The stream `NewSeekableStream` builds from `smallStream` and `linkBoth`. -/
def adoptedStream : SeekableStream :=
  { toFileStream :=
      { smallStream with Mimetype := "application/octet-stream",
                         reader := Reader.file ⟨"mapped", [10, 20, 30], 0⟩ 0,
                         closers := ["body", "mapped"] },
    Link := some linkBoth, rangeReadCloser := none, mFile := some ⟨"mapped", [10, 20, 30], 0⟩ }

/-- A stream that declares three bytes but whose source supplies only one. -/
def shortStream : FileStream := { smallStream with reader := Reader.source [10] }

/-- The stream is spooled on the temp file `T`: `T` is its temp file, its live reader reads
from `T` only, and it is `T` itself as long as there is no peek buffer. -/
def FileStream.spooledOn (f : FileStream) (T : File) : Prop :=
  f.tmpFile = some T ∧ f.reader.overTemp T ∧ (f.peekBuff = none → ∃ pos, f.reader = Reader.file T pos)

/-- The peek buffer, if any, holds at most `InMemoryBufMaxSizeBytes` bytes. -/
def FileStream.peekWithinCap (f : FileStream) : Prop :=
  ∀ pb, f.peekBuff = some pb → (pb.s.length : Int) ≤ InMemoryBufMaxSizeBytes

/-- The stream has a backing source: a random-access file together with a live reader, or a
range-read-capable closer. -/
def SeekableStream.backed (ss : SeekableStream) : Prop :=
  (ss.mFile ≠ none ∧ ss.reader ≠ Reader.nil) ∨ ss.rangeReadCloser ≠ none

/-! ## Obfuscation helper: properties -/

theorem hasPrefix_append (x : GoString) : HasPrefix (obfuscatedPrefix ++ x) obfuscatedPrefix = true := by
  simp [HasPrefix, obfuscatedPrefix]

theorem obfuscate_unmarked (ob : GoString → GoString) (s : GoString)
    (hs : HasPrefix s obfuscatedPrefix = false) : Obfuscate ob s = obfuscatedPrefix ++ ob s := by
  simp [Obfuscate, hs]

theorem obfuscate_marked (ob : GoString → GoString) (s : GoString)
    (hs : HasPrefix s obfuscatedPrefix = true) : Obfuscate ob s = s := by
  simp [Obfuscate, hs]

/-- C9 (as stated, refuted): with a library whose `MustReveal` undoes `MustObscure`, the round
trip `Revel(Obfuscate(s)) == s` still fails for a string that already carries the marker. -/
theorem C9_roundtrip_fails_on_marked :
    ¬ (∀ (MustObscure MustReveal : GoString → GoString),
        (∀ x, MustReveal (MustObscure x) = x) →
        ∀ s, Revel MustReveal (Obfuscate MustObscure s) = s) := by
  intro h
  have h1 := h (fun x => x) (fun x => x) (fun _ => rfl) obfuscatedPrefix
  revert h1
  decide

/-- C9 (amended): given that `MustReveal` undoes `MustObscure`, `Revel(Obfuscate(s)) == s` for
every string `s` that does not start with the marker; a string that starts with the marker is
left alone by `Obfuscate`, and `Revel` then returns `MustReveal` of the rest of the string. -/
theorem C9_roundtrip_unmarked (MustObscure MustReveal : GoString → GoString)
    (hlib : ∀ x, MustReveal (MustObscure x) = x) (s : GoString) :
    (HasPrefix s obfuscatedPrefix = false → Revel MustReveal (Obfuscate MustObscure s) = s) ∧
    (HasPrefix s obfuscatedPrefix = true →
      Obfuscate MustObscure s = s ∧
      Revel MustReveal (Obfuscate MustObscure s) = MustReveal (s.drop obfuscatedPrefix.length)) := by
  constructor
  · intro hs
    rw [obfuscate_unmarked MustObscure s hs]
    simp only [Revel, CutPrefix, hasPrefix_append, if_true]
    simp [hlib]
  · intro hs
    rw [obfuscate_marked MustObscure s hs]
    simp [Revel, CutPrefix, hs]

theorem C9_roundtrip_unmarked_witness :
    Revel (fun x => x.reverse) (Obfuscate (fun x => x.reverse) [104, 105]) = [104, 105] :=
  (C9_roundtrip_unmarked (fun x => x.reverse) (fun x => x.reverse)
    (fun x => List.reverse_reverse x) [104, 105]).1 (by decide)

/-- C10: `Obfuscate` is idempotent, its result always starts with the marker, and a string that
already starts with the marker is returned unchanged. -/
theorem C10_obfuscate_idempotent (MustObscure : GoString → GoString) (s : GoString) :
    Obfuscate MustObscure (Obfuscate MustObscure s) = Obfuscate MustObscure s ∧
    HasPrefix (Obfuscate MustObscure s) obfuscatedPrefix = true ∧
    (HasPrefix s obfuscatedPrefix = true → Obfuscate MustObscure s = s) := by
  have hmark : HasPrefix (Obfuscate MustObscure s) obfuscatedPrefix = true := by
    cases hs : HasPrefix s obfuscatedPrefix
    · rw [obfuscate_unmarked MustObscure s hs]; exact hasPrefix_append _
    · rw [obfuscate_marked MustObscure s hs]; exact hs
  exact ⟨obfuscate_marked MustObscure _ hmark, hmark, obfuscate_marked MustObscure s⟩

theorem C10_obfuscate_idempotent_witness :
    Obfuscate (fun x => x.reverse) (obfuscatedPrefix ++ [1, 2]) = obfuscatedPrefix ++ [1, 2] :=
  (C10_obfuscate_idempotent (fun x => x.reverse) (obfuscatedPrefix ++ [1, 2])).2.2 (by decide)

/-! ## `FileStream.Close` -/

theorem errorsJoin_pair (a b : Option Err) :
    errorsJoin [a, b] =
      match a, b with
      | none, none => none
      | some x, none => some (Err.join [x])
      | none, some y => some (Err.join [y])
      | some x, some y => some (Err.join [x, y]) := by
  cases a <;> cases b <;> rfl

/-- C6: `Close` closes every registered resource and, when a temp file exists, also calls
`os.RemoveAll` on it, whatever closing returned; the error is nil exactly when closing
succeeded and the removal (if any) succeeded; when both fail, the returned error holds both
the closer-set error and the removal error. -/
theorem C6_close_aggregation (closeOf removeAll : String → Option Err) (f : FileStream) :
    (f.Close closeOf removeAll).2 =
        f.closers.map Event.close ++
          (match f.tmpFile with
           | some t => [Event.removeAll t.name]
           | none => []) ∧
    ((f.Close closeOf removeAll).1 = none ↔
        (Closers.Close closeOf f.closers).1 = none ∧
        ∀ t, f.tmpFile = some t → removeAll t.name = none) ∧
    (∀ e1 t e2, (Closers.Close closeOf f.closers).1 = some e1 → f.tmpFile = some t →
        removeAll t.name = some e2 →
        ∃ e, (f.Close closeOf removeAll).1 = some e ∧ Err.Contains e e1 ∧ Err.Contains e e2) := by
  refine ⟨?_, ?_, ?_⟩
  · cases ht : f.tmpFile <;> simp [FileStream.Close, Closers.Close, ht]
  · cases ht : f.tmpFile with
    | none =>
      cases h1 : (Closers.Close closeOf f.closers).1 <;>
        simp [FileStream.Close, ht, h1, errorsJoin_pair]
    | some t =>
      cases h1 : (Closers.Close closeOf f.closers).1 <;> cases h2 : removeAll t.name <;>
        simp [FileStream.Close, ht, h1, h2, errorsJoin_pair]
  · intro e1 t e2 h1 ht h2
    refine ⟨Err.join [e1, NewErr e2 ("failed to remove tmpFile [" ++ t.name ++ "]")], ?_, ?_, ?_⟩
    · simp [FileStream.Close, ht, h1, h2, errorsJoin_pair]
    · exact Err.Contains.join (List.mem_cons_self _ _) (Err.Contains.self e1)
    · exact Err.Contains.join (List.mem_cons_of_mem _ (List.mem_cons_self _ _))
        (Err.Contains.wrap _ (Err.Contains.self e2))

theorem C6_close_aggregation_witness :
    ∃ e, (spooledStream.Close (fun _ => some Err.eof) (fun _ => some (Err.text "busy"))).1 = some e ∧
      Err.Contains e (Err.join [Err.eof]) ∧ Err.Contains e (Err.text "busy") :=
  (C6_close_aggregation (fun _ => some Err.eof) (fun _ => some (Err.text "busy")) spooledStream).2.2
    (Err.join [Err.eof]) ⟨"/tmp/file-1", [10, 20, 30], 0⟩ (Err.text "busy") rfl rfl rfl

/-! ## `NewSeekableStream` -/

theorem seekableSeed_reader (g : String → String) (fs : FileStream) (link : Option Link) :
    (seekableSeed g fs link).reader = fs.reader ∧ (seekableSeed g fs link).closers = fs.closers ∧
    (seekableSeed g fs link).size = fs.size := by
  unfold seekableSeed
  split <;> simp

/-- C7: when the stream's reader is absent or not a `model.File` and the link carries both an
`MFile` and a non-empty URL, `NewSeekableStream` succeeds, adopts the link's file as `mFile` and
as live reader, registers it in the closer set, leaves `rangeReadCloser` unset, and makes no
call to `GetRangeReadCloserFromLink` (no collaborator call at all). -/
theorem C7_link_file_before_url (GetMimeType : String → String)
    (GetRangeReadCloserFromLink : Int → Link → Except Err RangeReadCloser)
    (fs : FileStream) (l : Link) (m : File)
    (hreader : fs.reader.asFile = none) (hfile : l.MFile = some m) (_hurl : l.URL.length > 0) :
    ∃ ss, NewSeekableStream GetMimeType GetRangeReadCloserFromLink fs (some l) = (Except.ok ss, []) ∧
      ss.mFile = some m ∧ ss.reader = Reader.file m m.offset ∧
      ss.closers = fs.closers ++ [m.name] ∧ ss.rangeReadCloser = none ∧ ss.Link = some l := by
  have hseed := seekableSeed_reader GetMimeType fs (some l)
  refine ⟨{ seekableSeed GetMimeType fs (some l) with
              mFile := some m, reader := Reader.file m m.offset,
              closers := Closers.Add (seekableSeed GetMimeType fs (some l)).closers m.name },
          ?_, rfl, rfl, ?_, rfl, rfl⟩
  · have h1 : (seekableSeed GetMimeType fs (some l)).reader.asFile = none := by
      rw [hseed.1]; exact hreader
    unfold seekableSeed at h1
    simp only [NewSeekableStream, seekableSeed]
    simp only [h1, hfile]
  · simp [Closers.Add, hseed.2.1]

theorem C7_link_file_before_url_witness :
    ∃ ss, NewSeekableStream (fun _ => "application/octet-stream") (fun _ _ => Except.error Err.eof)
        smallStream (some linkBoth) = (Except.ok ss, []) ∧
      ss.mFile = some ⟨"mapped", [10, 20, 30], 0⟩ ∧
      ss.reader = Reader.file ⟨"mapped", [10, 20, 30], 0⟩ 0 ∧
      ss.closers = smallStream.closers ++ ["mapped"] ∧ ss.rangeReadCloser = none ∧
      ss.Link = some linkBoth :=
  C7_link_file_before_url (fun _ => "application/octet-stream") (fun _ _ => Except.error Err.eof)
    smallStream linkBoth ⟨"mapped", [10, 20, 30], 0⟩ rfl rfl (by decide)

/-- C2 (as stated, refuted): on a 10 MiB stream backed only by a remote closer, the range
`{Start: 2 MiB, Length: -1}` is delegated with length 10 MiB, not 8 MiB. -/
theorem C2_delegated_length_is_size_not_remainder :
    (remoteStream.RangeRead ⟨2097152, -1⟩).log = [Event.rangeRead "remote" ⟨2097152, 10485760⟩] ∧
    (remoteStream.RangeRead ⟨2097152, -1⟩).log ≠
      [Event.rangeRead "remote" ⟨2097152, 10485760 - 2097152⟩] := by
  constructor
  · rfl
  · decide

/-- C2 (amended): on a stream with no `mFile` and no temp file but a remote closer, a range
`{Start: start, Length: -1}` is passed to the closer's `RangeRead` as
`{Start: start, Length: size}`: the length is resolved to the declared size, whatever the
start. That is the only collaborator call, the closer's answer is returned as it is, and the
stream is left unchanged. -/
theorem C2_length_resolved_to_size (ss : SeekableStream) (rrc : RangeReadCloser) (start : Int)
    (hm : ss.mFile = none) (ht : ss.tmpFile = none) (hc : ss.rangeReadCloser = some rrc) :
    (ss.RangeRead ⟨start, -1⟩).log = [Event.rangeRead rrc.name ⟨start, ss.size⟩] ∧
    (ss.RangeRead ⟨start, -1⟩).out =
      (rrc.respond ⟨start, ss.size⟩).map (RangeReader.remote rrc.name ⟨start, ss.size⟩) ∧
    (ss.RangeRead ⟨start, -1⟩).st = ss := by
  cases hr : rrc.respond ⟨start, ss.size⟩ <;>
    simp [SeekableStream.RangeRead, resolveLength, hm, ht, hc, hr, Except.map]

theorem C2_length_resolved_to_size_witness :
    (remoteStream.RangeRead ⟨2097152, -1⟩).log
        = [Event.rangeRead quietCloser.name ⟨2097152, remoteStream.size⟩] ∧
    (remoteStream.RangeRead ⟨2097152, -1⟩).out =
      (quietCloser.respond ⟨2097152, remoteStream.size⟩).map
        (RangeReader.remote quietCloser.name ⟨2097152, remoteStream.size⟩) ∧
    (remoteStream.RangeRead ⟨2097152, -1⟩).st = remoteStream :=
  C2_length_resolved_to_size remoteStream quietCloser 2097152 rfl rfl rfl

/-! ## Reading a section -/

theorem wrap64_of_bounds (x : Int) (hlo : -(2 ^ 63) ≤ x) (hhi : x < 2 ^ 63) : wrap64 x = x := by
  unfold wrap64
  omega

theorem sectionLimit_of_bounds (off n : Int) (hoff : 0 ≤ off) (hoff2 : off < 2 ^ 63)
    (hn : 0 ≤ n) (hn2 : n < 2 ^ 63) :
    sectionLimit off n = min (off + n) maxInt64 := by
  unfold sectionLimit
  have h1 : wrap64 (maxInt64 - n) = maxInt64 - n := by
    apply wrap64_of_bounds <;> unfold maxInt64 <;> omega
  rw [h1]
  by_cases h : off ≤ maxInt64 - n
  · have h2 : wrap64 (n + off) = n + off := by
      apply wrap64_of_bounds <;> unfold maxInt64 at h <;> omega
    rw [if_pos h, h2]
    omega
  · rw [if_neg h]
    omega

theorem take_drop_clamp (d : List Byte) (a k m : Nat) (hm : d.length ≤ a + m)
    (hk : m ≤ k) : (d.drop a).take m = (d.drop a).take k := by
  rw [List.take_of_length_le, List.take_of_length_le] <;> simp <;> omega

/-- A section `(off, n)` over `d`, with `0 ≤ off`, `n ≥ 0` and everything within `int64`,
yields `d[off : off+n]` cut at the end of `d`. -/
theorem readAll_sect_bytes (d : List Byte) (off n : Int) (hd : (d.length : Int) < 2 ^ 63)
    (hoff : 0 ≤ off) (hoff2 : off < 2 ^ 63) (hn : 0 ≤ n) (hn2 : n < 2 ^ 63) :
    (RangeReader.sect (ReaderAt.bytes d) off n).readAll
      = Except.ok ((d.drop off.toNat).take n.toNat) := by
  simp only [RangeReader.readAll, sectionLimit_of_bounds off n hoff hoff2 hn hn2]
  by_cases h : off ≥ min (off + n) maxInt64
  · rw [if_pos h]
    congr 1
    symm
    by_cases h0 : n = 0
    · simp [h0]
    · have : d.length ≤ off.toNat := by unfold maxInt64 at h; omega
      simp [List.drop_of_length_le this]
  · rw [if_neg h, if_neg (by omega)]
    simp only [ReaderAt.readRange]
    congr 1
    by_cases h2 : off + n ≤ maxInt64
    · rw [min_eq_left h2]
      congr 1
      omega
    · rw [min_eq_right (by omega)]
      apply take_drop_clamp
      · unfold maxInt64; omega
      · unfold maxInt64 at *; omega

theorem readAll_sect_file (t : File) (off n : Int) :
    (RangeReader.sect (ReaderAt.osFile (some t)) off n).readAll
      = (RangeReader.sect (ReaderAt.bytes t.content) off n).readAll := by
  simp [RangeReader.readAll, ReaderAt.readRange]

/-! ## `FileStream.RangeRead` over a sequential source -/

/-- C3: on a fresh stream over a sequential source with content `c` of the declared size `S`
(an `int64`), `RangeRead({start, -1})` with `0 ≤ start < S` succeeds when the allocator does, and
the returned reader yields exactly `c[start:]`, which is `S - start` bytes. -/
theorem C3_length_minus_one_reads_to_end (fs : FileStream) (c : List Byte) (start : Int)
    (nm : String)
    (hr : fs.reader = Reader.source c) (hp : fs.peekBuff = none) (ht : fs.tmpFile = none)
    (hs : fs.size = c.length) (h64 : (c.length : Int) < 2 ^ 63)
    (h0 : 0 ≤ start) (h1 : start < fs.size) :
    ∃ rd, (fs.RangeRead (AllocOutcome.created nm) ⟨start, -1⟩).out = Except.ok rd ∧
      rd.readAll = Except.ok (c.drop start.toNat) ∧
      ((c.drop start.toNat).length : Int) = fs.size - start := by
  have hlen : ((c.drop start.toNat).length : Int) = fs.size - start := by
    simp only [List.length_drop]; omega
  have htake : (c.drop start.toNat).take fs.size.toNat = c.drop start.toNat := by
    apply List.take_of_length_le; simp only [List.length_drop]; omega
  by_cases hpk : start = 0 ∧ fs.size ≤ InMemoryBufMaxSizeBytes
  · refine ⟨RangeReader.sect (ReaderAt.bytes c) start fs.size, ?_, ?_, hlen⟩
    · have hcap : (c.length : Int) ≤ InMemoryBufMaxSizeBytes := hs ▸ hpk.2
      have hnn : ¬ ((c.length : Int) < 0) := by omega
      simp [FileStream.RangeRead, resolveLength, hp, hpk.1, hr, Reader.pull, hs, hcap, hnn]
    · rw [readAll_sect_bytes c start fs.size h64 h0 (by omega) (by omega) (by omega), htake]
  · refine ⟨RangeReader.sect (ReaderAt.osFile (some ⟨nm, c, 0⟩)) start fs.size, ?_, ?_, hlen⟩
    · have hpk2 : ¬ (start = 0 ∧ (c.length : Int) ≤ InMemoryBufMaxSizeBytes) := hs ▸ hpk
      simp [FileStream.RangeRead, resolveLength, hp, hpk2, hr, ht, hs, FileStream.CacheFullInTempFile,
        CreateTempFile, Reader.drain, Reader.asFile]
    · rw [readAll_sect_file,
        readAll_sect_bytes c start fs.size h64 h0 (by omega) (by omega) (by omega), htake]

theorem pull_length (r : Reader) (pk : Option BytesReader) (k : Nat)
    (h : (r.pull pk k).stop = none) : (r.pull pk k).data.length = k := by
  induction r generalizing pk k with
  | nil => cases pk <;> simp only [Reader.pull] at h ⊢ <;> split at h <;> simp_all
  | source rest => cases pk <;> simp only [Reader.pull] at h ⊢ <;> split at h <;> simp_all
  | file f pos => cases pk <;> simp only [Reader.pull] at h ⊢ <;> split at h <;> simp_all
  | multi inner ih =>
    cases pk with
    | none => simp only [Reader.pull] at h ⊢; split at h <;> simp_all
    | some b =>
      by_cases hle : k ≤ (b.s.drop b.i).length
      · simp only [Reader.pull, hle, if_true, List.length_take]
        omega
      · simp only [Reader.pull, hle, if_false] at h ⊢
        have := ih _ _ h
        simp only [List.length_append, this]
        omega

/-- First branch of `RangeRead`: the range lies inside the unread part of the peek buffer. -/
theorem rangeRead_hit (f : FileStream) (a : AllocOutcome) (r : Range) (pb : BytesReader)
    (hp : f.peekBuff = some pb) (h : peekHit pb (resolveLength f.size r)) :
    f.RangeRead a r = ⟨Except.ok (RangeReader.sect (ReaderAt.bytes pb.s)
        (resolveLength f.size r).Start (resolveLength f.size r).Length), f, []⟩ := by
  unfold peekHit at h
  simp [FileStream.RangeRead, hp, Option.filter, h]

/-- Second branch of `RangeRead`, the copy succeeds: the peek buffer is created. -/
theorem rangeRead_peek_ok (f : FileStream) (a : AllocOutcome) (r : Range)
    (hp : f.peekBuff = none) (h0 : (resolveLength f.size r).Start = 0)
    (hcap : (resolveLength f.size r).Length ≤ InMemoryBufMaxSizeBytes)
    (hk : 0 ≤ min (resolveLength f.size r).Length f.size)
    (hstop : (f.reader.pull none (min (resolveLength f.size r).Length f.size).toNat).stop = none) :
    f.RangeRead a r =
      ⟨Except.ok (RangeReader.sect (ReaderAt.bytes
          (f.reader.pull none (min (resolveLength f.size r).Length f.size).toNat).data)
          (resolveLength f.size r).Start (resolveLength f.size r).Length),
       { f with
          peekBuff := some
            ⟨(f.reader.pull none (min (resolveLength f.size r).Length f.size).toNat).data, 0⟩,
          reader := Reader.multi
            (f.reader.pull none (min (resolveLength f.size r).Length f.size).toNat).reader },
       []⟩ := by
  have hlen := pull_length _ _ _ hstop
  have hk2 : ¬ (min (resolveLength f.size r).Length f.size < 0) := by omega
  have hlen2 : ((f.reader.pull none (min (resolveLength f.size r).Length f.size).toNat).data.length
      : Int) = min (resolveLength f.size r).Length f.size := by
    rw [hlen]; omega
  simp only [FileStream.RangeRead, hp, Option.filter, h0, hcap, true_and, and_self, if_true, hk2,
    if_false, hstop, hlen2, ne_eq, not_true_eq_false]

/-- Second branch of `RangeRead`, the copy fails: an error, and no peek buffer. -/
theorem rangeRead_peek_fail (f : FileStream) (a : AllocOutcome) (r : Range)
    (hp : f.peekBuff = none) (h0 : (resolveLength f.size r).Start = 0)
    (hcap : (resolveLength f.size r).Length ≤ InMemoryBufMaxSizeBytes)
    (hbad : min (resolveLength f.size r).Length f.size < 0 ∨
      (f.reader.pull none (min (resolveLength f.size r).Length f.size).toNat).stop ≠ none) :
    ∃ e, (f.RangeRead a r).out = Except.error e := by
  by_cases hk : min (resolveLength f.size r).Length f.size < 0
  · exact ⟨Err.crash "makeslice: cap out of range", by
      simp only [FileStream.RangeRead, hp, Option.filter, h0, hcap, true_and,
        and_self, if_true, hk]⟩
  · cases hstop : (f.reader.pull none (min (resolveLength f.size r).Length f.size).toNat).stop with
    | none => rcases hbad with h | h
              · exact absurd h hk
              · exact absurd hstop h
    | some e =>
      exact ⟨e, by simp only [FileStream.RangeRead, hp, Option.filter, h0, hcap, true_and,
        and_self, if_true, hk, if_false, hstop]⟩

/-- Third branch of `RangeRead` with a temp file in place. -/
theorem rangeRead_tmp (f : FileStream) (a : AllocOutcome) (r : Range) (t : File)
    (hnohit : ∀ pb, f.peekBuff = some pb → ¬ peekHit pb (resolveLength f.size r))
    (hnopeek : ¬ ((resolveLength f.size r).Start = 0 ∧
      (resolveLength f.size r).Length ≤ InMemoryBufMaxSizeBytes ∧ f.peekBuff = none))
    (ht : f.tmpFile = some t) :
    f.RangeRead a r = ⟨Except.ok (RangeReader.sect (ReaderAt.osFile (some t))
        (resolveLength f.size r).Start (resolveLength f.size r).Length), f, []⟩ := by
  cases hp : f.peekBuff with
  | none =>
    have hn : ¬ ((resolveLength f.size r).Start = 0 ∧
        (resolveLength f.size r).Length ≤ InMemoryBufMaxSizeBytes ∧ True) := by
      simpa [hp] using hnopeek
    simp only [FileStream.RangeRead, hp, Option.filter]
    rw [if_neg hn]
    simp only [ht]
  | some pb =>
    have h1 := hnohit pb hp
    unfold peekHit at h1
    simp [FileStream.RangeRead, hp, Option.filter, h1, ht]

/-- Third branch of `RangeRead` with no temp file yet: the stream is materialized first. -/
theorem rangeRead_spool (f : FileStream) (a : AllocOutcome) (r : Range)
    (hnohit : ∀ pb, f.peekBuff = some pb → ¬ peekHit pb (resolveLength f.size r))
    (hnopeek : ¬ ((resolveLength f.size r).Start = 0 ∧
      (resolveLength f.size r).Length ≤ InMemoryBufMaxSizeBytes ∧ f.peekBuff = none))
    (ht : f.tmpFile = none) :
    f.RangeRead a r =
      match (f.CacheFullInTempFile a).out with
      | Except.error err => ⟨Except.error err, (f.CacheFullInTempFile a).st,
          (f.CacheFullInTempFile a).log⟩
      | Except.ok _ =>
          ⟨Except.ok (RangeReader.sect (ReaderAt.osFile (f.CacheFullInTempFile a).st.tmpFile)
            (resolveLength f.size r).Start (resolveLength f.size r).Length),
           (f.CacheFullInTempFile a).st, (f.CacheFullInTempFile a).log⟩ := by
  cases hp : f.peekBuff with
  | none =>
    have hn : ¬ ((resolveLength f.size r).Start = 0 ∧
        (resolveLength f.size r).Length ≤ InMemoryBufMaxSizeBytes ∧ True) := by
      simpa [hp] using hnopeek
    simp only [FileStream.RangeRead, hp, Option.filter]
    rw [if_neg hn]
    simp only [ht]
  | some pb =>
    have h1 := hnohit pb hp
    unfold peekHit at h1
    simp [FileStream.RangeRead, hp, Option.filter, h1, ht]

/-! ## `FileStream.CacheFullInTempFile`, branch by branch -/

theorem cacheFull_existing (f : FileStream) (a : AllocOutcome) (t : File)
    (ht : f.tmpFile = some t) : f.CacheFullInTempFile a = ⟨Except.ok t, f, []⟩ := by
  simp only [FileStream.CacheFullInTempFile, ht]

theorem cacheFull_file (f : FileStream) (a : AllocOutcome) (x : File)
    (ht : f.tmpFile = none) (hx : f.reader.asFile = some x) :
    f.CacheFullInTempFile a = ⟨Except.ok x, f, []⟩ := by
  simp only [FileStream.CacheFullInTempFile, ht, hx]

theorem cacheFull_created (f : FileStream) (nm : String)
    (ht : f.tmpFile = none) (hx : f.reader.asFile = none)
    (hstop : (f.reader.drain f.peekBuff).stop = none) :
    f.CacheFullInTempFile (AllocOutcome.created nm) =
      ⟨Except.ok ⟨nm, (f.reader.drain f.peekBuff).data, 0⟩,
       { f with tmpFile := some ⟨nm, (f.reader.drain f.peekBuff).data, 0⟩,
                reader := Reader.file ⟨nm, (f.reader.drain f.peekBuff).data, 0⟩ 0,
                peekBuff := (f.reader.drain f.peekBuff).peek },
       [Event.createTempFile (some ⟨nm, (f.reader.drain f.peekBuff).data, 0⟩)]⟩ := by
  simp only [FileStream.CacheFullInTempFile, ht, hx, CreateTempFile, hstop]

theorem cacheFull_fresh_ok (f : FileStream) (a : AllocOutcome) (t : File)
    (ht : f.tmpFile = none) (hx : f.reader.asFile = none)
    (hok : (f.CacheFullInTempFile a).out = Except.ok t) :
    ∃ nm, a = AllocOutcome.created nm ∧ (f.reader.drain f.peekBuff).stop = none := by
  cases a with
  | failed e k => simp [FileStream.CacheFullInTempFile, ht, hx, CreateTempFile] at hok
  | created nm =>
    refine ⟨nm, rfl, ?_⟩
    cases hstop : (f.reader.drain f.peekBuff).stop with
    | none => rfl
    | some e => simp [FileStream.CacheFullInTempFile, ht, hx, CreateTempFile, hstop] at hok

theorem pull_source (c : List Byte) (k : Nat) (h : (Reader.pull (Reader.source c) none k).stop = none) :
    Reader.pull (Reader.source c) none k = ⟨c.take k, none, Reader.source (c.drop k), none⟩ := by
  simp only [Reader.pull] at h ⊢
  split at h
  · rename_i hle; rw [if_pos hle]
  · simp at h

theorem pull_file (t : File) (k : Nat) (h : (Reader.pull (Reader.file t 0) none k).stop = none) :
    Reader.pull (Reader.file t 0) none k = ⟨t.content.take k, none, Reader.file t k, none⟩ := by
  simp only [Reader.pull, List.drop_zero, Nat.zero_add] at h ⊢
  split at h
  · rename_i hle; rw [if_pos hle]
  · simp at h

/-! ## Range correctness over a sequential source -/

theorem coherent_step (c : List Byte) (f : FileStream) (a : AllocOutcome) (r : Range)
    (rd : RangeReader) (hc : Coherent c f) (hok : (f.RangeRead a r).out = Except.ok rd) :
    Coherent c (f.RangeRead a r).st := by
  obtain ⟨hsz, ⟨hr, hp, ht⟩ | ⟨p, q, hr, hp, ht, hpq⟩ | ⟨t, hr, hp, ht, htc⟩ | ⟨t, pb, ht, htc, hp, hpre⟩⟩ := hc
  · -- untouched
    by_cases hpk : (resolveLength f.size r).Start = 0 ∧
        (resolveLength f.size r).Length ≤ InMemoryBufMaxSizeBytes
    · by_cases hbad : min (resolveLength f.size r).Length f.size < 0 ∨
          (f.reader.pull none (min (resolveLength f.size r).Length f.size).toNat).stop ≠ none
      · obtain ⟨e, he⟩ := rangeRead_peek_fail f a r hp hpk.1 hpk.2 hbad
        rw [he] at hok; cases hok
      · have hk : 0 ≤ min (resolveLength f.size r).Length f.size := by
          by_contra h; exact hbad (Or.inl (by omega))
        have hstop : (f.reader.pull none
            (min (resolveLength f.size r).Length f.size).toNat).stop = none := by
          by_contra h; exact hbad (Or.inr h)
        rw [rangeRead_peek_ok f a r hp hpk.1 hpk.2 hk hstop]
        rw [hr] at hstop ⊢
        rw [pull_source c _ hstop]
        exact ⟨hsz, Or.inr (Or.inl ⟨_, _, rfl, rfl, ht, List.take_append_drop _ c⟩)⟩
    · have hnohit : ∀ pb, f.peekBuff = some pb → ¬ peekHit pb (resolveLength f.size r) := by
        intro pb hpb; rw [hp] at hpb; cases hpb
      have hnopeek : ¬ ((resolveLength f.size r).Start = 0 ∧
          (resolveLength f.size r).Length ≤ InMemoryBufMaxSizeBytes ∧ f.peekBuff = none) :=
        fun h => hpk ⟨h.1, h.2.1⟩
      have hx : f.reader.asFile = none := by rw [hr]; rfl
      rw [rangeRead_spool f a r hnohit hnopeek ht] at hok ⊢
      cases hout : (f.CacheFullInTempFile a).out with
      | error e => rw [hout] at hok; cases hok
      | ok tf =>
        obtain ⟨nm, rfl, hstop⟩ := cacheFull_fresh_ok f a tf ht hx hout
        rw [cacheFull_created f nm ht hx hstop]
        simp only [hr, hp, Reader.drain]
        exact ⟨hsz, Or.inr (Or.inr (Or.inl ⟨_, rfl, rfl, rfl, rfl⟩))⟩
  · -- peeked
    by_cases hhit : peekHit ⟨p, 0⟩ (resolveLength f.size r)
    · rw [rangeRead_hit f a r _ hp hhit]
      exact ⟨hsz, Or.inr (Or.inl ⟨p, q, hr, hp, ht, hpq⟩)⟩
    · have hnohit : ∀ pb, f.peekBuff = some pb → ¬ peekHit pb (resolveLength f.size r) := by
        intro pb hpb; rw [hp] at hpb; cases hpb; exact hhit
      have hnopeek : ¬ ((resolveLength f.size r).Start = 0 ∧
          (resolveLength f.size r).Length ≤ InMemoryBufMaxSizeBytes ∧ f.peekBuff = none) := by
        intro h; rw [hp] at h; cases h.2.2
      have hx : f.reader.asFile = none := by rw [hr]; rfl
      rw [rangeRead_spool f a r hnohit hnopeek ht] at hok ⊢
      cases hout : (f.CacheFullInTempFile a).out with
      | error e => rw [hout] at hok; cases hok
      | ok tf =>
        obtain ⟨nm, rfl, hstop⟩ := cacheFull_fresh_ok f a tf ht hx hout
        rw [cacheFull_created f nm ht hx hstop]
        simp only [hr, hp, Reader.drain, List.drop_zero]
        exact ⟨hsz, Or.inr (Or.inr (Or.inr ⟨_, _, rfl, hpq, rfl, hpq ▸ List.prefix_append p q⟩))⟩
  · -- spooled
    by_cases hpk : (resolveLength f.size r).Start = 0 ∧
        (resolveLength f.size r).Length ≤ InMemoryBufMaxSizeBytes
    · by_cases hbad : min (resolveLength f.size r).Length f.size < 0 ∨
          (f.reader.pull none (min (resolveLength f.size r).Length f.size).toNat).stop ≠ none
      · obtain ⟨e, he⟩ := rangeRead_peek_fail f a r hp hpk.1 hpk.2 hbad
        rw [he] at hok; cases hok
      · have hk : 0 ≤ min (resolveLength f.size r).Length f.size := by
          by_contra h; exact hbad (Or.inl (by omega))
        have hstop : (f.reader.pull none
            (min (resolveLength f.size r).Length f.size).toNat).stop = none := by
          by_contra h; exact hbad (Or.inr h)
        rw [rangeRead_peek_ok f a r hp hpk.1 hpk.2 hk hstop]
        rw [hr] at hstop ⊢
        rw [pull_file t _ hstop]
        exact ⟨hsz, Or.inr (Or.inr (Or.inr ⟨t, _, ht, htc, rfl, htc ▸ List.take_prefix _ _⟩))⟩
    · have hnohit : ∀ pb, f.peekBuff = some pb → ¬ peekHit pb (resolveLength f.size r) := by
        intro pb hpb; rw [hp] at hpb; cases hpb
      have hnopeek : ¬ ((resolveLength f.size r).Start = 0 ∧
          (resolveLength f.size r).Length ≤ InMemoryBufMaxSizeBytes ∧ f.peekBuff = none) :=
        fun h => hpk ⟨h.1, h.2.1⟩
      rw [rangeRead_tmp f a r t hnohit hnopeek ht]
      exact ⟨hsz, Or.inr (Or.inr (Or.inl ⟨t, hr, hp, ht, htc⟩))⟩
  · -- spooled, with a peek buffer
    by_cases hhit : peekHit pb (resolveLength f.size r)
    · rw [rangeRead_hit f a r _ hp hhit]
      exact ⟨hsz, Or.inr (Or.inr (Or.inr ⟨t, pb, ht, htc, hp, hpre⟩))⟩
    · have hnohit : ∀ pb, f.peekBuff = some pb → ¬ peekHit pb (resolveLength f.size r) := by
        intro pb' hpb; rw [hp] at hpb; cases hpb; exact hhit
      have hnopeek : ¬ ((resolveLength f.size r).Start = 0 ∧
          (resolveLength f.size r).Length ≤ InMemoryBufMaxSizeBytes ∧ f.peekBuff = none) := by
        intro h; rw [hp] at h; cases h.2.2
      rw [rangeRead_tmp f a r t hnohit hnopeek ht]
      exact ⟨hsz, Or.inr (Or.inr (Or.inr ⟨t, pb, ht, htc, hp, hpre⟩))⟩

theorem coherent_rangeReads (c : List Byte) (calls : List (AllocOutcome × Range))
    (f f' : FileStream) (hc : Coherent c f) (hrun : f.rangeReads calls = some f') :
    Coherent c f' := by
  induction calls generalizing f with
  | nil => simp only [FileStream.rangeReads, Option.some.injEq] at hrun; exact hrun ▸ hc
  | cons call rest ih =>
    obtain ⟨a, r⟩ := call
    simp only [FileStream.rangeReads] at hrun
    cases hout : (f.RangeRead a r).out with
    | error e => rw [hout] at hrun; cases hrun
    | ok rd =>
      rw [hout] at hrun
      exact ih _ (coherent_step c f a r rd hc hout) hrun

theorem prefix_slice (p c : List Byte) (hp : p <+: c) (a n : Nat) (h : a + n ≤ p.length) :
    (p.drop a).take n = (c.drop a).take n := by
  obtain ⟨q, rfl⟩ := hp
  rw [List.drop_append_of_le_length (by omega), List.take_append_of_le_length]
  simp only [List.length_drop]; omega

theorem peekHit_within (pb : BytesReader) (start length : Int) (h0 : 0 ≤ start)
    (h1 : 1 ≤ length) (h2 : start + length < 2 ^ 63) (h : peekHit pb ⟨start, length⟩) :
    start + length ≤ pb.s.length := by
  obtain ⟨-, hb⟩ := h
  simp only [] at hb
  rw [wrap64_of_bounds (start + length) (by omega) h2,
    wrap64_of_bounds (start + length - 1) (by omega) (by omega)] at hb
  unfold BytesReader.Len at hb
  omega

theorem peek_slice (pb : BytesReader) (c : List Byte) (hpre : pb.s <+: c) (start length : Int)
    (h64 : (c.length : Int) < 2 ^ 63) (h0 : 0 ≤ start) (h1 : 1 ≤ length)
    (h2 : start + length ≤ c.length) (h : peekHit pb ⟨start, length⟩) :
    (RangeReader.sect (ReaderAt.bytes pb.s) start length).readAll
      = Except.ok ((c.drop start.toNat).take length.toNat) := by
  have hw := peekHit_within pb start length h0 h1 (by omega) h
  have hle : pb.s.length ≤ c.length := hpre.length_le
  rw [readAll_sect_bytes pb.s start length (by omega) h0 (by omega) (by omega) (by omega),
    prefix_slice pb.s c hpre _ _ (by omega)]

theorem coherent_read (c : List Byte) (f : FileStream) (hc : Coherent c f)
    (h64 : (c.length : Int) < 2 ^ 63) (start length : Int) (nm : String)
    (h0 : 0 ≤ start) (h1 : 1 ≤ length) (h2 : start + length ≤ f.size) :
    ∃ rd, (f.RangeRead (AllocOutcome.created nm) ⟨start, length⟩).out = Except.ok rd ∧
      rd.readAll = Except.ok ((c.drop start.toNat).take length.toNat) ∧
      ((∃ s, rd = RangeReader.sect (ReaderAt.bytes s) start length) ∨
       (∃ t, rd = RangeReader.sect (ReaderAt.osFile (some t)) start length)) := by
  have hres : resolveLength f.size ⟨start, length⟩ = ⟨start, length⟩ := by
    have : length ≠ -1 := by omega
    simp [resolveLength, this]
  have hS : (resolveLength f.size ⟨start, length⟩).Start = start := by rw [hres]
  have hL : (resolveLength f.size ⟨start, length⟩).Length = length := by rw [hres]
  have hmin : min length f.size = length := by omega
  obtain ⟨hsz, ⟨hr, hp, ht⟩ | ⟨p, q, hr, hp, ht, hpq⟩ | ⟨t, hr, hp, ht, htc⟩ | ⟨t, pb, ht, htc, hp, hpre⟩⟩ := hc
  · -- untouched
    by_cases hpk : start = 0 ∧ length ≤ InMemoryBufMaxSizeBytes
    · have hstop : (f.reader.pull none
          (min (resolveLength f.size ⟨start, length⟩).Length f.size).toNat).stop = none := by
        rw [hL, hr, hmin]; simp only [Reader.pull]; rw [if_pos (by omega)]
      have hrr := rangeRead_peek_ok f (AllocOutcome.created nm) ⟨start, length⟩ hp
        (by rw [hS]; exact hpk.1) (by rw [hL]; exact hpk.2) (by rw [hL]; omega) hstop
      rw [hL, hr, hmin] at hstop
      rw [hrr, hS, hL, hr, hmin, pull_source c _ hstop]
      refine ⟨_, rfl, ?_, Or.inl ⟨_, rfl⟩⟩
      rw [readAll_sect_bytes _ start length (by simp only [List.length_take]; omega) h0
        (by omega) (by omega) (by omega)]
      congr 1
      rw [hpk.1]
      simp
    · have hnohit : ∀ pb, f.peekBuff = some pb →
          ¬ peekHit pb (resolveLength f.size ⟨start, length⟩) := by
        intro pb hpb; rw [hp] at hpb; cases hpb
      have hnopeek : ¬ ((resolveLength f.size ⟨start, length⟩).Start = 0 ∧
          (resolveLength f.size ⟨start, length⟩).Length ≤ InMemoryBufMaxSizeBytes ∧
          f.peekBuff = none) := by
        rw [hS, hL]; exact fun h => hpk ⟨h.1, h.2.1⟩
      have hx : f.reader.asFile = none := by rw [hr]; rfl
      have hstop : (f.reader.drain f.peekBuff).stop = none := by rw [hr, hp]; rfl
      rw [rangeRead_spool f _ _ hnohit hnopeek ht, cacheFull_created f nm ht hx hstop, hS, hL]
      refine ⟨_, rfl, ?_, Or.inr ⟨_, rfl⟩⟩
      rw [readAll_sect_file, hr, hp]
      simp only [Reader.drain]
      exact readAll_sect_bytes c start length h64 h0 (by omega) (by omega) (by omega)
  · -- peeked
    by_cases hhit : peekHit ⟨p, 0⟩ (resolveLength f.size ⟨start, length⟩)
    · rw [rangeRead_hit f _ _ _ hp hhit, hS, hL]
      refine ⟨_, rfl, ?_, Or.inl ⟨_, rfl⟩⟩
      rw [hres] at hhit
      exact peek_slice ⟨p, 0⟩ c (hpq ▸ List.prefix_append p q) start length h64 h0 h1
        (by omega) hhit
    · have hnohit : ∀ pb, f.peekBuff = some pb →
          ¬ peekHit pb (resolveLength f.size ⟨start, length⟩) := by
        intro pb hpb; rw [hp] at hpb; cases hpb; exact hhit
      have hnopeek : ¬ ((resolveLength f.size ⟨start, length⟩).Start = 0 ∧
          (resolveLength f.size ⟨start, length⟩).Length ≤ InMemoryBufMaxSizeBytes ∧
          f.peekBuff = none) := by
        intro h; rw [hp] at h; cases h.2.2
      have hx : f.reader.asFile = none := by rw [hr]; rfl
      have hstop : (f.reader.drain f.peekBuff).stop = none := by rw [hr, hp]; rfl
      rw [rangeRead_spool f _ _ hnohit hnopeek ht, cacheFull_created f nm ht hx hstop, hS, hL]
      refine ⟨_, rfl, ?_, Or.inr ⟨_, rfl⟩⟩
      rw [readAll_sect_file, hr, hp]
      simp only [Reader.drain, List.drop_zero, hpq]
      exact readAll_sect_bytes c start length h64 h0 (by omega) (by omega) (by omega)
  · -- spooled
    have htl : t.content.length = c.length := by rw [htc]
    by_cases hpk : start = 0 ∧ length ≤ InMemoryBufMaxSizeBytes
    · have hstop : (f.reader.pull none
          (min (resolveLength f.size ⟨start, length⟩).Length f.size).toNat).stop = none := by
        rw [hL, hr, hmin]; simp only [Reader.pull, List.drop_zero]; rw [if_pos (by omega)]
      have hrr := rangeRead_peek_ok f (AllocOutcome.created nm) ⟨start, length⟩ hp
        (by rw [hS]; exact hpk.1) (by rw [hL]; exact hpk.2) (by rw [hL]; omega) hstop
      rw [hL, hr, hmin] at hstop
      rw [hrr, hS, hL, hr, hmin, pull_file t _ hstop]
      refine ⟨_, rfl, ?_, Or.inl ⟨_, rfl⟩⟩
      rw [readAll_sect_bytes _ start length (by simp only [List.length_take]; omega) h0
        (by omega) (by omega) (by omega)]
      congr 1
      rw [hpk.1, htc]
      simp
    · have hnohit : ∀ pb, f.peekBuff = some pb →
          ¬ peekHit pb (resolveLength f.size ⟨start, length⟩) := by
        intro pb hpb; rw [hp] at hpb; cases hpb
      have hnopeek : ¬ ((resolveLength f.size ⟨start, length⟩).Start = 0 ∧
          (resolveLength f.size ⟨start, length⟩).Length ≤ InMemoryBufMaxSizeBytes ∧
          f.peekBuff = none) := by
        rw [hS, hL]; exact fun h => hpk ⟨h.1, h.2.1⟩
      rw [rangeRead_tmp f _ _ t hnohit hnopeek ht, hS, hL]
      refine ⟨_, rfl, ?_, Or.inr ⟨_, rfl⟩⟩
      rw [readAll_sect_file, htc]
      exact readAll_sect_bytes c start length h64 h0 (by omega) (by omega) (by omega)
  · -- spooled, with a peek buffer
    by_cases hhit : peekHit pb (resolveLength f.size ⟨start, length⟩)
    · rw [rangeRead_hit f _ _ _ hp hhit, hS, hL]
      refine ⟨_, rfl, ?_, Or.inl ⟨_, rfl⟩⟩
      rw [hres] at hhit
      exact peek_slice pb c hpre start length h64 h0 h1 (by omega) hhit
    · have hnohit : ∀ pb, f.peekBuff = some pb →
          ¬ peekHit pb (resolveLength f.size ⟨start, length⟩) := by
        intro pb' hpb; rw [hp] at hpb; cases hpb; exact hhit
      have hnopeek : ¬ ((resolveLength f.size ⟨start, length⟩).Start = 0 ∧
          (resolveLength f.size ⟨start, length⟩).Length ≤ InMemoryBufMaxSizeBytes ∧
          f.peekBuff = none) := by
        intro h; rw [hp] at h; cases h.2.2
      rw [rangeRead_tmp f _ _ t hnohit hnopeek ht, hS, hL]
      refine ⟨_, rfl, ?_, Or.inr ⟨_, rfl⟩⟩
      rw [readAll_sect_file, htc]
      exact readAll_sect_bytes c start length h64 h0 (by omega) (by omega) (by omega)

theorem C3_length_minus_one_reads_to_end_witness :
    ∃ rd, (smallStream.RangeRead (AllocOutcome.created "/tmp/file-1") ⟨1, -1⟩).out = Except.ok rd ∧
      rd.readAll = Except.ok (([10, 20, 30] : List Byte).drop (1 : Int).toNat) ∧
      ((([10, 20, 30] : List Byte).drop (1 : Int).toNat).length : Int) = smallStream.size - 1 :=
  C3_length_minus_one_reads_to_end smallStream [10, 20, 30] 1 "/tmp/file-1" rfl rfl rfl rfl
    (by norm_num) (by decide) (by decide)

/-- C1: take a stream over a sequential source with content `c`, `len(c)` equal to the declared
size (an `int64`), and any run of earlier `RangeRead` calls that all succeeded. Then for every
range with `0 ≤ start`, `1 ≤ length`, `start + length ≤ size`, `RangeRead` succeeds when the
allocator does, and the returned reader yields exactly the `length` bytes
`c[start : start+length]`; it is a section of the peek cache or of the temp file. -/
theorem C1_range_correctness (fs : FileStream) (c : List Byte)
    (calls : List (AllocOutcome × Range)) (fs' : FileStream) (start length : Int) (nm : String)
    (hr : fs.reader = Reader.source c) (hp : fs.peekBuff = none) (ht : fs.tmpFile = none)
    (hs : fs.size = c.length) (h64 : (c.length : Int) < 2 ^ 63)
    (hcalls : fs.rangeReads calls = some fs')
    (h0 : 0 ≤ start) (h1 : 1 ≤ length) (h2 : start + length ≤ fs.size) :
    ∃ rd, (fs'.RangeRead (AllocOutcome.created nm) ⟨start, length⟩).out = Except.ok rd ∧
      rd.readAll = Except.ok ((c.drop start.toNat).take length.toNat) ∧
      (((c.drop start.toNat).take length.toNat).length : Int) = length ∧
      ((∃ s, rd = RangeReader.sect (ReaderAt.bytes s) start length) ∨
       (∃ t, rd = RangeReader.sect (ReaderAt.osFile (some t)) start length)) := by
  have hc : Coherent c fs' :=
    coherent_rangeReads c calls fs fs' ⟨hs, Or.inl ⟨hr, hp, ht⟩⟩ hcalls
  obtain ⟨rd, hout, hread, hkind⟩ :=
    coherent_read c fs' hc h64 start length nm h0 h1 (by rw [hc.1, ← hs]; exact h2)
  refine ⟨rd, hout, hread, ?_, hkind⟩
  simp only [List.length_take, List.length_drop]
  omega

theorem C1_range_correctness_witness :
    ∃ rd, (smallPeeked.RangeRead (AllocOutcome.created "/tmp/file-1") ⟨1, 2⟩).out = Except.ok rd ∧
      rd.readAll = Except.ok ((([10, 20, 30] : List Byte).drop (1 : Int).toNat).take (2 : Int).toNat) ∧
      (((([10, 20, 30] : List Byte).drop (1 : Int).toNat).take (2 : Int).toNat).length : Int) = 2 ∧
      ((∃ s, rd = RangeReader.sect (ReaderAt.bytes s) 1 2) ∨
       (∃ t, rd = RangeReader.sect (ReaderAt.osFile (some t)) 1 2)) :=
  C1_range_correctness smallStream [10, 20, 30] [(AllocOutcome.failed Err.eof 0, ⟨0, 2⟩)]
    smallPeeked 1 2 "/tmp/file-1" rfl rfl rfl rfl (by norm_num) (by rfl)
    (by decide) (by decide) (by decide)

/-! ## Peek then sequential read -/

theorem peekRead_unchanged (f : FileStream) (a : AllocOutcome) (r : Range) (pb : BytesReader)
    (s : List Byte) (off n : Int) (hp : f.peekBuff = some pb)
    (hout : (f.RangeRead a r).out = Except.ok (RangeReader.sect (ReaderAt.bytes s) off n)) :
    (f.RangeRead a r).st = f := by
  by_cases hhit : peekHit pb (resolveLength f.size r)
  · rw [rangeRead_hit f a r pb hp hhit]
  · have hnohit : ∀ pb, f.peekBuff = some pb → ¬ peekHit pb (resolveLength f.size r) := by
      intro pb' hpb; rw [hp] at hpb; cases hpb; exact hhit
    have hnopeek : ¬ ((resolveLength f.size r).Start = 0 ∧
        (resolveLength f.size r).Length ≤ InMemoryBufMaxSizeBytes ∧ f.peekBuff = none) := by
      intro h; rw [hp] at h; cases h.2.2
    cases ht : f.tmpFile with
    | some t => rw [rangeRead_tmp f a r t hnohit hnopeek ht]
    | none =>
      rw [rangeRead_spool f a r hnohit hnopeek ht] at hout
      cases hc : (f.CacheFullInTempFile a).out with
      | error e => rw [hc] at hout; cases hout
      | ok t => rw [hc] at hout; cases hout

theorem peekReads_unchanged (calls : List (AllocOutcome × Range)) (f f' : FileStream)
    (pb : BytesReader) (hp : f.peekBuff = some pb) (hrun : f.peekReads calls = some f') :
    f' = f := by
  induction calls generalizing f with
  | nil => simp only [FileStream.peekReads, Option.some.injEq] at hrun; exact hrun.symm
  | cons call rest ih =>
    obtain ⟨a, r⟩ := call
    simp only [FileStream.peekReads] at hrun
    split at hrun
    · rename_i s off n hout
      have hst := peekRead_unchanged f a r pb s off n hp hout
      rw [hst] at hrun
      exact ih f hp hrun
    · cases hrun

/-- C4: on a stream over a sequential source with content `c` and no peek cache, after a
`RangeRead` that succeeds and creates the peek cache, and after any number of further range
reads answered from the cache, the live reader is the cache `p` (unread) followed by the source
holding the remainder `q`, with `p ++ q = c`, and reading it to the end yields exactly `c`. -/
theorem C4_peek_then_sequential (fs : FileStream) (c : List Byte) (a : AllocOutcome) (r : Range)
    (rd : RangeReader) (more : List (AllocOutcome × Range)) (fs' : FileStream)
    (hr : fs.reader = Reader.source c) (hp : fs.peekBuff = none)
    (hok : (fs.RangeRead a r).out = Except.ok rd)
    (hcreated : (fs.RangeRead a r).st.peekBuff ≠ none)
    (hmore : (fs.RangeRead a r).st.peekReads more = some fs') :
    (∃ p q, fs'.peekBuff = some ⟨p, 0⟩ ∧ fs'.reader = Reader.multi (Reader.source q) ∧
      p ++ q = c) ∧
    (fs'.reader.drain fs'.peekBuff).data = c ∧ (fs'.reader.drain fs'.peekBuff).stop = none := by
  have key : ∃ p q, (fs.RangeRead a r).st.peekBuff = some ⟨p, 0⟩ ∧
      (fs.RangeRead a r).st.reader = Reader.multi (Reader.source q) ∧ p ++ q = c := by
    by_cases hpk : (resolveLength fs.size r).Start = 0 ∧
        (resolveLength fs.size r).Length ≤ InMemoryBufMaxSizeBytes
    · by_cases hbad : min (resolveLength fs.size r).Length fs.size < 0 ∨
          (fs.reader.pull none (min (resolveLength fs.size r).Length fs.size).toNat).stop ≠ none
      · obtain ⟨e, he⟩ := rangeRead_peek_fail fs a r hp hpk.1 hpk.2 hbad
        rw [he] at hok; cases hok
      · have hk : 0 ≤ min (resolveLength fs.size r).Length fs.size := by
          by_contra h; exact hbad (Or.inl (by omega))
        have hstop : (fs.reader.pull none
            (min (resolveLength fs.size r).Length fs.size).toNat).stop = none := by
          by_contra h; exact hbad (Or.inr h)
        rw [rangeRead_peek_ok fs a r hp hpk.1 hpk.2 hk hstop]
        rw [hr] at hstop ⊢
        rw [pull_source c _ hstop]
        exact ⟨_, _, rfl, rfl, List.take_append_drop _ c⟩
    · exfalso
      apply hcreated
      have hnohit : ∀ pb, fs.peekBuff = some pb → ¬ peekHit pb (resolveLength fs.size r) := by
        intro pb hpb; rw [hp] at hpb; cases hpb
      have hnopeek : ¬ ((resolveLength fs.size r).Start = 0 ∧
          (resolveLength fs.size r).Length ≤ InMemoryBufMaxSizeBytes ∧ fs.peekBuff = none) :=
        fun h => hpk ⟨h.1, h.2.1⟩
      have hx : fs.reader.asFile = none := by rw [hr]; rfl
      cases ht : fs.tmpFile with
      | some t => rw [rangeRead_tmp fs a r t hnohit hnopeek ht]; exact hp
      | none =>
        rw [rangeRead_spool fs a r hnohit hnopeek ht] at hok ⊢
        cases hout : (fs.CacheFullInTempFile a).out with
        | error e => rw [hout] at hok; cases hok
        | ok tf =>
          obtain ⟨nm, rfl, hstop⟩ := cacheFull_fresh_ok fs a tf ht hx hout
          rw [cacheFull_created fs nm ht hx hstop]
          simp only [hr, hp, Reader.drain]
  obtain ⟨p, q, hpb, hrd, hpq⟩ := key
  have hsame := peekReads_unchanged more _ fs' _ hpb hmore
  subst hsame
  refine ⟨⟨p, q, hpb, hrd, hpq⟩, ?_, ?_⟩
  · rw [hrd, hpb]; simpa [Reader.drain] using hpq
  · rw [hrd, hpb]; rfl

theorem C4_peek_then_sequential_witness :
    (∃ p q, smallPeeked.peekBuff = some ⟨p, 0⟩ ∧
      smallPeeked.reader = Reader.multi (Reader.source q) ∧ p ++ q = [10, 20, 30]) ∧
    (smallPeeked.reader.drain smallPeeked.peekBuff).data = [10, 20, 30] ∧
    (smallPeeked.reader.drain smallPeeked.peekBuff).stop = none :=
  C4_peek_then_sequential smallStream [10, 20, 30] (AllocOutcome.failed Err.eof 0) ⟨0, 2⟩
    (RangeReader.sect (ReaderAt.bytes [10, 20]) 0 2)
    [(AllocOutcome.failed Err.eof 0, ⟨0, 1⟩), (AllocOutcome.failed Err.eof 0, ⟨1, 1⟩)]
    smallPeeked rfl rfl (by rfl) (by decide) (by rfl)

/-! ## At most one materialization -/

theorem allocations_append (l1 l2 : List Event) :
    allocations (l1 ++ l2) = allocations l1 + allocations l2 := by
  simp [allocations, List.filter_append]

/-- A range read either makes no collaborator call and keeps the temp file field, or it is the
materialization of a stream that has no temp file. -/
theorem rangeRead_frame (f : FileStream) (a : AllocOutcome) (r : Range) :
    ((f.RangeRead a r).log = [] ∧ (f.RangeRead a r).st.tmpFile = f.tmpFile) ∨
    (f.tmpFile = none ∧ (f.RangeRead a r).log = (f.CacheFullInTempFile a).log ∧
      (f.RangeRead a r).st = (f.CacheFullInTempFile a).st) := by
  by_cases hhit : ∃ pb, f.peekBuff = some pb ∧ peekHit pb (resolveLength f.size r)
  · obtain ⟨pb, hp, hh⟩ := hhit
    rw [rangeRead_hit f a r pb hp hh]; exact Or.inl ⟨rfl, rfl⟩
  · have hnohit : ∀ pb, f.peekBuff = some pb → ¬ peekHit pb (resolveLength f.size r) :=
      fun pb hp hh => hhit ⟨pb, hp, hh⟩
    by_cases hpk : (resolveLength f.size r).Start = 0 ∧
        (resolveLength f.size r).Length ≤ InMemoryBufMaxSizeBytes ∧ f.peekBuff = none
    · left
      obtain ⟨h0, hcap, hp⟩ := hpk
      simp only [FileStream.RangeRead, hp, Option.filter, h0, hcap, true_and, and_self, if_true]
      split
      · exact ⟨rfl, rfl⟩
      · split
        · exact ⟨rfl, rfl⟩
        · split <;> exact ⟨rfl, rfl⟩
    · cases ht : f.tmpFile with
      | some t => rw [rangeRead_tmp f a r t hnohit hpk ht]; exact Or.inl ⟨rfl, ht⟩
      | none =>
        right
        rw [rangeRead_spool f a r hnohit hpk ht]
        refine ⟨rfl, ?_⟩
        split <;> exact ⟨rfl, rfl⟩

theorem fileStream_call_spooled (f : FileStream) (c : FsCall) (t : File)
    (ht : f.tmpFile = some t) :
    (f.call c).1.tmpFile = some t ∧ allocations (f.call c).2 = 0 := by
  cases c with
  | cacheFull a =>
    simp only [FileStream.call, cacheFull_existing f a t ht]
    exact ⟨ht, rfl⟩
  | rangeRead a r =>
    simp only [FileStream.call]
    rcases rangeRead_frame f a r with ⟨hl, hs⟩ | ⟨hn, -⟩
    · rw [hl, hs]; exact ⟨ht, rfl⟩
    · rw [ht] at hn; cases hn

theorem seekable_rangeRead_frame (ss : SeekableStream) (r : Range) :
    (ss.RangeRead r).st = ss ∧ allocations (ss.RangeRead r).log = 0 := by
  unfold SeekableStream.RangeRead
  simp only []
  split
  · exact ⟨rfl, rfl⟩
  · split
    · exact ⟨rfl, rfl⟩
    · split
      · split <;> exact ⟨rfl, rfl⟩
      · exact ⟨rfl, rfl⟩

theorem seekable_cacheFull_existing (ss : SeekableStream) (a : AllocOutcome) (t : File)
    (ht : ss.tmpFile = some t) : ss.CacheFullInTempFile a = ⟨Except.ok t, ss, []⟩ := by
  simp only [SeekableStream.CacheFullInTempFile, ht]

theorem seekable_cacheFull_mfile (ss : SeekableStream) (a : AllocOutcome) (m : File)
    (ht : ss.tmpFile = none) (hm : ss.mFile = some m) :
    ss.CacheFullInTempFile a = ⟨Except.ok m, ss, []⟩ := by
  simp only [SeekableStream.CacheFullInTempFile, ht, hm]

/-- C13: on a stream with no live reader whose closer fails the full-stream request that `Read`
makes, `Read(p)` returns `(0, nil)` for every buffer, and leaves the stream as it was (live
reader unset, nothing added to the closer set); with no live reader and no closer `Read`
returns `(0, "illegal seekableStream")`. -/
theorem C13_read_swallows_acquisition_failure (ss : SeekableStream) (n : Nat)
    (hr : ss.reader = Reader.nil) :
    (∀ rrc e, ss.rangeReadCloser = some rrc → rrc.respond ⟨0, -1⟩ = Except.error e →
      ss.Read n = ⟨[], none, ss, [Event.rangeRead rrc.name ⟨0, -1⟩]⟩) ∧
    (ss.rangeReadCloser = none → ss.Read n = ⟨[], some illegalSeekableStream, ss, []⟩) := by
  constructor
  · intro rrc e hc he
    simp [SeekableStream.Read, SeekableStream.acquire, hr, hc, he]
  · intro hc
    simp [SeekableStream.Read, SeekableStream.acquire, hr, hc]

theorem C13_read_swallows_acquisition_failure_witness :
    brokenStream.Read 4096 = ⟨[], none, brokenStream, [Event.rangeRead brokenCloser.name ⟨0, -1⟩]⟩ :=
  (C13_read_swallows_acquisition_failure brokenStream 4096 rfl).1 brokenCloser
    (Err.text "connection refused") rfl rfl

/-! ## What `NewSeekableStream` leaves behind -/

/-- C16: in the stream a successful `NewSeekableStream` returns, exactly one of `mFile` and
`rangeReadCloser` is set; when `mFile` is set, it has been appended to the closer set, and it
is either the stream's own reader (kept as live reader) or the link's `MFile`, which is then
the live reader. -/
theorem C16_exactly_one_backing_source (GetMimeType : String → String)
    (GetRangeReadCloserFromLink : Int → Link → Except Err RangeReadCloser)
    (fs : FileStream) (link : Option Link) (ss : SeekableStream) (log : List Event)
    (h : NewSeekableStream GetMimeType GetRangeReadCloserFromLink fs link = (Except.ok ss, log)) :
    (ss.mFile.isSome = !ss.rangeReadCloser.isSome) ∧
    (∀ m, ss.mFile = some m → ss.closers = fs.closers ++ [m.name] ∧
      ((fs.reader.asFile = some m ∧ ss.reader = fs.reader) ∨
       (fs.reader.asFile = none ∧ ∃ l, link = some l ∧ l.MFile = some m ∧
          ss.reader = Reader.file m m.offset))) := by
  cases hr : fs.reader.asFile with
  | some rf =>
    by_cases hmime : fs.Mimetype.length = 0 <;>
      simp [NewSeekableStream, hmime, hr] at h <;>
      obtain ⟨rfl, -⟩ := h <;> simp [Closers.Add]
  | none =>
    cases link with
    | none => by_cases hmime : fs.Mimetype.length = 0 <;> simp [NewSeekableStream, hmime, hr] at h
    | some l =>
      cases hm : l.MFile with
      | some m =>
        by_cases hmime : fs.Mimetype.length = 0 <;>
          simp [NewSeekableStream, hmime, hr, hm] at h <;>
          obtain ⟨rfl, -⟩ := h <;> simp [Closers.Add, hm]
      | none =>
        cases hc : l.RangeReadCloser with
        | some rrc =>
          by_cases hmime : fs.Mimetype.length = 0 <;>
            simp [NewSeekableStream, hmime, hr, hm, hc] at h <;>
            obtain ⟨rfl, -⟩ := h <;> simp
        | none =>
          by_cases hu : l.URL.length > 0
          · have hu0 : l.URL.length ≠ 0 := by omega
            cases hb : GetRangeReadCloserFromLink fs.size l with
            | error err =>
              by_cases hmime : fs.Mimetype.length = 0 <;>
                simp [NewSeekableStream, hmime, hr, hm, hc, hu, hu0, hb] at h
            | ok rrc =>
              by_cases hmime : fs.Mimetype.length = 0 <;>
                simp [NewSeekableStream, hmime, hr, hm, hc, hu, hu0, hb] at h <;>
                obtain ⟨rfl, -⟩ := h <;> simp
          · have hu0 : l.URL.length = 0 := by omega
            by_cases hmime : fs.Mimetype.length = 0 <;>
              simp [NewSeekableStream, hmime, hr, hm, hc, hu, hu0] at h

theorem C16_exactly_one_backing_source_witness :
    (adoptedStream.mFile.isSome = !adoptedStream.rangeReadCloser.isSome) ∧
    (∀ m, adoptedStream.mFile = some m → adoptedStream.closers = smallStream.closers ++ [m.name] ∧
      ((smallStream.reader.asFile = some m ∧ adoptedStream.reader = smallStream.reader) ∨
       (smallStream.reader.asFile = none ∧ ∃ l, some linkBoth = some l ∧ l.MFile = some m ∧
          adoptedStream.reader = Reader.file m m.offset))) :=
  C16_exactly_one_backing_source (fun _ => "application/octet-stream")
    (fun _ _ => Except.error Err.eof) smallStream (some linkBoth) adoptedStream [] rfl

/-! ## `FileStream.RangeRead` over a reader that is itself a file -/

/-- C15 (the code at the failing input): on a `FileStream` whose reader is the random-access
file `uploadFile` (content `[10, 20, 30]`), `CacheFullInTempFile` returns that file and creates
no temp file, but `RangeRead({1, 2})` discards it and builds its section reader over the
`tmpFile` field, which is still nil: reading the returned reader fails instead of yielding
`[20, 30]`. -/
theorem C15_section_over_nil_tmpFile :
    fileBacked.CacheFullInTempFile (AllocOutcome.created "/tmp/file-1")
      = ⟨Except.ok uploadFile, fileBacked, []⟩ ∧
    fileBacked.RangeRead (AllocOutcome.created "/tmp/file-1") ⟨1, 2⟩
      = ⟨Except.ok (RangeReader.sect (ReaderAt.osFile none) 1 2), fileBacked, []⟩ ∧
    (RangeReader.sect (ReaderAt.osFile none) 1 2).readAll
      = Except.error (Err.text "invalid argument") ∧
    (RangeReader.sect (ReaderAt.mfile uploadFile) 1 2).readAll = Except.ok [20, 30] := by
  refine ⟨rfl, rfl, ?_, ?_⟩
  · rfl
  · rfl

/-! ## Sequential reads and the shared peek buffer -/

theorem pull_peek_none (r : Reader) (k : Nat) : (r.pull none k).peek = none := by
  cases r <;> simp only [Reader.pull] <;> split <;> rfl

theorem drain_peek_none (r : Reader) : (r.drain none).peek = none := by
  cases r <;> rfl

theorem pull_peek_some (r : Reader) (b : BytesReader) (k : Nat) :
    ∃ i, (r.pull (some b) k).peek = some ⟨b.s, i⟩ := by
  induction r generalizing b k with
  | nil => simp only [Reader.pull]; split <;> exact ⟨b.i, rfl⟩
  | source rest => simp only [Reader.pull]; split <;> exact ⟨b.i, rfl⟩
  | file f pos => simp only [Reader.pull]; split <;> exact ⟨b.i, rfl⟩
  | multi inner ih =>
    simp only [Reader.pull]
    split
    · exact ⟨_, rfl⟩
    · exact ih ⟨b.s, _⟩ _

theorem drain_peek_some (r : Reader) (b : BytesReader) :
    ∃ i, (r.drain (some b)).peek = some ⟨b.s, i⟩ := by
  induction r generalizing b with
  | nil => exact ⟨b.i, rfl⟩
  | source rest => exact ⟨b.i, rfl⟩
  | file f pos => exact ⟨b.i, rfl⟩
  | multi inner ih =>
    simp only [Reader.drain]
    exact ih ⟨b.s, _⟩

theorem pull_short (r : Reader) (pk : Option BytesReader) (k : Nat)
    (h : (r.drain pk).data.length < k) : (r.pull pk k).stop ≠ none := by
  induction r generalizing pk k with
  | nil =>
    cases pk <;> simp only [Reader.drain, List.length_nil] at h <;>
      simp [Reader.pull, Nat.pos_iff_ne_zero.mp h]
  | source rest =>
    cases pk <;> simp only [Reader.drain] at h <;> simp [Reader.pull, Nat.not_le.mpr h]
  | file f pos =>
    cases pk <;> simp only [Reader.drain, List.length_drop] at h <;>
      simp [Reader.pull, Nat.not_le.mpr h]
  | multi inner ih =>
    cases pk with
    | none =>
      simp only [Reader.drain, List.length_nil] at h
      simp [Reader.pull, Nat.pos_iff_ne_zero.mp h]
    | some b =>
      simp only [Reader.drain, List.length_append] at h
      have hlt : ¬ k ≤ (b.s.drop b.i).length := by omega
      simp only [Reader.pull, hlt, if_false]
      exact ih _ _ (by omega)

theorem pull_enough (r : Reader) (pk : Option BytesReader) (k : Nat)
    (h : k ≤ (r.drain pk).data.length) :
    (r.pull pk k).stop = none ∧ (r.pull pk k).data = (r.drain pk).data.take k := by
  induction r generalizing pk k with
  | nil =>
    cases pk <;> simp only [Reader.drain, List.length_nil, Nat.le_zero] at h <;>
      simp [Reader.pull, Reader.drain, h]
  | source rest =>
    cases pk <;> simp only [Reader.drain] at h <;> simp [Reader.pull, Reader.drain, h]
  | file f pos =>
    cases pk <;> simp only [Reader.drain, List.length_drop] at h <;>
      simp [Reader.pull, Reader.drain, h]
  | multi inner ih =>
    cases pk with
    | none =>
      simp only [Reader.drain, List.length_nil, Nat.le_zero] at h
      simp [Reader.pull, Reader.drain, h]
    | some b =>
      simp only [Reader.drain, List.length_append] at h
      by_cases hle : k ≤ (b.s.drop b.i).length
      · simp only [Reader.pull, hle, if_true, Reader.drain, true_and]
        rw [List.take_append_of_le_length hle]
      · simp only [Reader.pull, hle, if_false, Reader.drain]
        obtain ⟨h1, h2⟩ := ih (some ⟨b.s, b.i + (b.s.drop b.i).length⟩)
          (k - (b.s.drop b.i).length) (by omega)
        refine ⟨h1, ?_⟩
        have ht : List.take k (b.s.drop b.i) = b.s.drop b.i :=
          List.take_of_length_le (by omega)
        rw [h2, List.take_append_eq_append_take, ht]

theorem cacheFull_peek_none (f : FileStream) (a : AllocOutcome) (hp : f.peekBuff = none) :
    (f.CacheFullInTempFile a).st.peekBuff = none := by
  cases ht : f.tmpFile with
  | some t => rw [cacheFull_existing f a t ht]; exact hp
  | none =>
    cases hx : f.reader.asFile with
    | some x => rw [cacheFull_file f a x ht hx]; exact hp
    | none =>
      cases a with
      | failed e k =>
        simp only [FileStream.CacheFullInTempFile, ht, hx, CreateTempFile, hp]
        exact pull_peek_none _ _
      | created nm =>
        cases hstop : (f.reader.drain none).stop <;>
          simp only [FileStream.CacheFullInTempFile, ht, hx, CreateTempFile, hp, hstop] <;>
          exact drain_peek_none _

theorem cacheFull_peek_some (f : FileStream) (a : AllocOutcome) (b : BytesReader)
    (hp : f.peekBuff = some b) : ∃ i, (f.CacheFullInTempFile a).st.peekBuff = some ⟨b.s, i⟩ := by
  cases ht : f.tmpFile with
  | some t => rw [cacheFull_existing f a t ht]; exact ⟨b.i, hp⟩
  | none =>
    cases hx : f.reader.asFile with
    | some x => rw [cacheFull_file f a x ht hx]; exact ⟨b.i, hp⟩
    | none =>
      cases a with
      | failed e k =>
        simp only [FileStream.CacheFullInTempFile, ht, hx, CreateTempFile, hp]
        exact pull_peek_some _ _ _
      | created nm =>
        cases hstop : (f.reader.drain (some b)).stop <;>
          simp only [FileStream.CacheFullInTempFile, ht, hx, CreateTempFile, hp, hstop] <;>
          exact drain_peek_some _ _

/-- A range read that fails on a stream without a peek buffer leaves it without one. -/
theorem rangeRead_error_no_peek (f : FileStream) (a : AllocOutcome) (r : Range) (e : Err)
    (hp : f.peekBuff = none) (herr : (f.RangeRead a r).out = Except.error e) :
    (f.RangeRead a r).st.peekBuff = none := by
  have hnohit : ∀ pb, f.peekBuff = some pb → ¬ peekHit pb (resolveLength f.size r) := by
    intro pb hpb; rw [hp] at hpb; cases hpb
  by_cases hpk : (resolveLength f.size r).Start = 0 ∧
      (resolveLength f.size r).Length ≤ InMemoryBufMaxSizeBytes
  · generalize hst : f.RangeRead a r = s at herr ⊢
    simp only [FileStream.RangeRead, hp, Option.filter, hpk.1, hpk.2, true_and, and_self,
      if_true] at hst
    split at hst
    · subst hst; exact hp
    · split at hst
      · subst hst; exact pull_peek_none _ _
      · split at hst
        · subst hst; exact pull_peek_none _ _
        · subst hst; cases herr
  · have hnopeek : ¬ ((resolveLength f.size r).Start = 0 ∧
        (resolveLength f.size r).Length ≤ InMemoryBufMaxSizeBytes ∧ f.peekBuff = none) :=
      fun h => hpk ⟨h.1, h.2.1⟩
    cases ht : f.tmpFile with
    | some t => rw [rangeRead_tmp f a r t hnohit hnopeek ht] at herr; cases herr
    | none =>
      rw [rangeRead_spool f a r hnohit hnopeek ht]
      split <;> exact cacheFull_peek_none f a hp

/-- A range read that leaves a peek buffer where there was none has taken the second branch:
the buffer is unread and holds `min(Length, size)` bytes, at most 10 MiB. -/
theorem rangeRead_created (f : FileStream) (a : AllocOutcome) (r : Range) (pb : BytesReader)
    (hp : f.peekBuff = none) (hpb : (f.RangeRead a r).st.peekBuff = some pb) :
    pb.i = 0 ∧ (pb.s.length : Int) = min (resolveLength f.size r).Length f.size ∧
    (pb.s.length : Int) ≤ InMemoryBufMaxSizeBytes ∧ (resolveLength f.size r).Start = 0 := by
  have hnohit : ∀ pb, f.peekBuff = some pb → ¬ peekHit pb (resolveLength f.size r) := by
    intro pb hpb; rw [hp] at hpb; cases hpb
  by_cases hpk : (resolveLength f.size r).Start = 0 ∧
      (resolveLength f.size r).Length ≤ InMemoryBufMaxSizeBytes
  · by_cases hbad : min (resolveLength f.size r).Length f.size < 0 ∨
        (f.reader.pull none (min (resolveLength f.size r).Length f.size).toNat).stop ≠ none
    · obtain ⟨e, he⟩ := rangeRead_peek_fail f a r hp hpk.1 hpk.2 hbad
      rw [rangeRead_error_no_peek f a r e hp he] at hpb
      cases hpb
    · have hk : 0 ≤ min (resolveLength f.size r).Length f.size := by
        by_contra h; exact hbad (Or.inl (by omega))
      have hstop : (f.reader.pull none
          (min (resolveLength f.size r).Length f.size).toNat).stop = none := by
        by_contra h; exact hbad (Or.inr h)
      rw [rangeRead_peek_ok f a r hp hpk.1 hpk.2 hk hstop] at hpb
      simp only [Option.some.injEq] at hpb
      subst hpb
      have hlen := pull_length _ _ _ hstop
      simp only [hlen]
      refine ⟨trivial, by omega, by omega, hpk.1⟩
  · have hnopeek : ¬ ((resolveLength f.size r).Start = 0 ∧
        (resolveLength f.size r).Length ≤ InMemoryBufMaxSizeBytes ∧ f.peekBuff = none) :=
      fun h => hpk ⟨h.1, h.2.1⟩
    exfalso
    cases ht : f.tmpFile with
    | some t =>
      rw [rangeRead_tmp f a r t hnohit hnopeek ht, hp] at hpb; cases hpb
    | none =>
      rw [rangeRead_spool f a r hnohit hnopeek ht] at hpb
      have hnone := cacheFull_peek_none f a hp
      split at hpb <;> (simp only [] at hpb; rw [hnone] at hpb; cases hpb)

/-! ## Peek-cache hits -/

/-- C12 (as stated, refuted): `smallStream` declares 3 bytes and its reader supplies 3. The
range `{0, 5}` asks for more than the reader can supply, yet `RangeRead` succeeds: it caches
the 3 bytes and returns a reader that yields 3 bytes, fewer than 5. -/
theorem C12_length_beyond_size_is_clamped :
    (smallStream.reader.drain smallStream.peekBuff).data.length = 3 ∧
    smallStream.RangeRead (AllocOutcome.failed Err.eof 0) ⟨0, 5⟩
      = ⟨Except.ok (RangeReader.sect (ReaderAt.bytes [10, 20, 30]) 0 5),
         { smallStream with peekBuff := some ⟨[10, 20, 30], 0⟩,
                            reader := Reader.multi (Reader.source []) }, []⟩ ∧
    (RangeReader.sect (ReaderAt.bytes [10, 20, 30]) 0 5).readAll = Except.ok [10, 20, 30] := by
  refine ⟨rfl, rfl, rfl⟩

/-- Copying `k` bytes from a reader that reaches its end before it has supplied `k` bytes takes
everything that is left and stops with `io.EOF`. -/
theorem pull_short_eof (r : Reader) (k : Nat) (hs : (r.drain none).stop = none)
    (h : (r.drain none).data.length < k) :
    r.pull none k = ⟨(r.drain none).data, some Err.eof, (r.drain none).reader, none⟩ := by
  cases r with
  | nil => simp [Reader.drain] at hs
  | source rest =>
    simp only [Reader.drain] at h ⊢
    simp only [Reader.pull, Nat.not_le.mpr h, if_false]
  | file f pos =>
    simp only [Reader.drain] at h ⊢
    simp only [Reader.pull, Nat.not_le.mpr h, if_false]
  | multi inner => simp [Reader.drain] at hs

/-- C12 (amended): on a stream with no peek cache and a range `{0, L}`, `0 ≤ L ≤ 10 MiB`, the
copy asks the live reader for `min(L, size)` bytes. If the live reader reaches the end of its
input after fewer than `min(L, size)` bytes, `RangeRead` returns the copy's error `io.EOF`,
creates no peek cache, calls no collaborator and leaves the live reader at its end. (On a nil
live reader the copy does not return an error: it panics.) If `L` exceeds the declared size
and the reader can supply `size` bytes, `RangeRead` succeeds, caches the first `size` bytes and
returns a reader that yields exactly those `size` bytes. -/
theorem C12_short_read_against_clamped_length (f : FileStream) (a : AllocOutcome) (L : Int)
    (hp : f.peekBuff = none) (h0 : 0 ≤ L) (hcap : L ≤ InMemoryBufMaxSizeBytes) :
    ((f.reader.drain none).stop = none →
      ((f.reader.drain none).data.length : Int) < min L f.size →
      f.RangeRead a ⟨0, L⟩
        = ⟨Except.error Err.eof, { f with reader := (f.reader.drain none).reader }, []⟩) ∧
    (f.reader = Reader.nil → 0 < min L f.size →
      f.RangeRead a ⟨0, L⟩ = ⟨Except.error nilReaderCrash, f, []⟩) ∧
    (0 ≤ f.size → f.size < L → f.size ≤ ((f.reader.drain none).data.length : Int) →
      (f.RangeRead a ⟨0, L⟩).out = Except.ok (RangeReader.sect
          (ReaderAt.bytes ((f.reader.drain none).data.take f.size.toNat)) 0 L) ∧
      (f.RangeRead a ⟨0, L⟩).st.peekBuff
        = some ⟨(f.reader.drain none).data.take f.size.toNat, 0⟩ ∧
      (RangeReader.sect (ReaderAt.bytes ((f.reader.drain none).data.take f.size.toNat))
          0 L).readAll = Except.ok ((f.reader.drain none).data.take f.size.toNat) ∧
      (((f.reader.drain none).data.take f.size.toNat).length : Int) = f.size) := by
  have hres : resolveLength f.size ⟨0, L⟩ = ⟨0, L⟩ := by
    have : L ≠ -1 := by omega
    simp [resolveLength, this]
  have hS : (resolveLength f.size ⟨0, L⟩).Start = 0 := by rw [hres]
  have hL : (resolveLength f.size ⟨0, L⟩).Length = L := by rw [hres]
  have hcapv : InMemoryBufMaxSizeBytes = 10485760 := by
    simp [InMemoryBufMaxSizeBytes, InMemoryBufMaxSize]
  refine ⟨?_, ?_, ?_⟩
  · intro hclean hshort
    have hk : ¬ (min L f.size < 0) := by omega
    have hpull := pull_short_eof f.reader (min L f.size).toNat hclean (by omega)
    have hst : { f with reader := (f.reader.drain none).reader, peekBuff := none }
        = { f with reader := (f.reader.drain none).reader } := by
      cases f; simp only [] at hp; subst hp; rfl
    simp only [FileStream.RangeRead, hp, Option.filter, hS, hL, hcap, true_and, and_self, if_true,
      hk, if_false, hpull, hst]
  · intro hnil hpos
    have hk : ¬ (min L f.size < 0) := by omega
    have hne : ¬ ((min L f.size).toNat = 0) := by omega
    have hst : { f with reader := Reader.nil, peekBuff := none } = f := by
      cases f; simp only [] at hp hnil; subst hp; subst hnil; rfl
    simp only [FileStream.RangeRead, hp, Option.filter, hS, hL, hcap, true_and, and_self, if_true,
      hk, if_false, hnil, Reader.pull, hne, hst]
  · intro hsz hlt havail
    have hmin : min L f.size = f.size := by omega
    obtain ⟨hstop, hdata⟩ := pull_enough f.reader none f.size.toNat (by omega)
    have hrr := rangeRead_peek_ok f a ⟨0, L⟩ hp hS (by rw [hL]; exact hcap)
      (by rw [hL]; omega) (by rw [hL, hmin]; exact hstop)
    rw [hL, hmin, hS, hdata] at hrr
    have hlen : (((f.reader.drain none).data.take f.size.toNat).length : Int) = f.size := by
      simp only [List.length_take]; omega
    refine ⟨by rw [hrr], by rw [hrr], ?_, hlen⟩
    rw [readAll_sect_bytes _ 0 L (by omega) (by omega) (by omega) h0 (by omega)]
    congr 1
    rw [Int.toNat_zero, List.drop_zero]
    exact List.take_of_length_le (by omega)

theorem C12_short_read_against_clamped_length_witness :
    shortStream.RangeRead (AllocOutcome.failed Err.eof 0) ⟨0, 2⟩
      = ⟨Except.error Err.eof, { shortStream with reader := Reader.source [] }, []⟩ :=
  (C12_short_read_against_clamped_length shortStream (AllocOutcome.failed Err.eof 0) 2
    rfl (by decide) (by decide)).1 rfl (by decide)

/-! ## Once a temp file exists -/

theorem cacheFull_materialized (f : FileStream) (a : AllocOutcome) (T : File)
    (ht : f.tmpFile = none) (hT : (f.CacheFullInTempFile a).st.tmpFile = some T) :
    (f.CacheFullInTempFile a).st.reader = Reader.file T 0 := by
  cases hx : f.reader.asFile with
  | some x => rw [cacheFull_file f a x ht hx] at hT; rw [ht] at hT; cases hT
  | none =>
    cases a with
    | failed e k => simp [FileStream.CacheFullInTempFile, ht, hx, CreateTempFile] at hT
    | created nm =>
      cases hstop : (f.reader.drain f.peekBuff).stop with
      | some e => simp [FileStream.CacheFullInTempFile, ht, hx, CreateTempFile, hstop] at hT
      | none =>
        rw [cacheFull_created f nm ht hx hstop] at hT ⊢
        simp only [Option.some.injEq] at hT
        rw [← hT]

theorem spooledOn_of_file (f : FileStream) (T : File) (ht : f.tmpFile = some T)
    (hr : f.reader = Reader.file T 0) : f.spooledOn T :=
  ⟨ht, by rw [hr]; rfl, fun _ => ⟨0, hr⟩⟩

theorem pull_file_reader (T : File) (pos : Nat) (pk : Option BytesReader) (k : Nat) :
    ∃ pos', (Reader.pull (Reader.file T pos) pk k).reader = Reader.file T pos' := by
  cases pk <;> simp only [Reader.pull] <;> split <;> exact ⟨_, rfl⟩

theorem spooledOn_rangeRead (f : FileStream) (T : File) (a : AllocOutcome) (r : Range)
    (h : f.spooledOn T) : (f.RangeRead a r).st.spooledOn T := by
  obtain ⟨ht, hover, hfile⟩ := h
  by_cases hhit : ∃ pb, f.peekBuff = some pb ∧ peekHit pb (resolveLength f.size r)
  · obtain ⟨pb, hp, hh⟩ := hhit
    rw [rangeRead_hit f a r pb hp hh]; exact ⟨ht, hover, hfile⟩
  · have hnohit : ∀ pb, f.peekBuff = some pb → ¬ peekHit pb (resolveLength f.size r) :=
      fun pb hp hh => hhit ⟨pb, hp, hh⟩
    by_cases hpk : (resolveLength f.size r).Start = 0 ∧
        (resolveLength f.size r).Length ≤ InMemoryBufMaxSizeBytes ∧ f.peekBuff = none
    · obtain ⟨h0, hcap, hp⟩ := hpk
      obtain ⟨pos, hr⟩ := hfile hp
      obtain ⟨pos', hpos'⟩ := pull_file_reader T pos none
        (min (resolveLength f.size r).Length f.size).toNat
      have hpeek := pull_peek_none (Reader.file T pos)
        (min (resolveLength f.size r).Length f.size).toNat
      simp only [FileStream.RangeRead, hp, Option.filter, h0, hcap, true_and, and_self, if_true,
        hr]
      split
      · exact ⟨ht, by rw [hr]; rfl, fun _ => ⟨pos, hr⟩⟩
      · split
        · exact ⟨ht, by simp only [hpos']; rfl, fun _ => ⟨pos', hpos'⟩⟩
        · split
          · exact ⟨ht, by simp only [hpos']; rfl, fun _ => ⟨pos', hpos'⟩⟩
          · exact ⟨ht, by simp only [hpos']; rfl, fun h => by cases h⟩
    · rw [rangeRead_tmp f a r T hnohit hpk ht]; exact ⟨ht, hover, hfile⟩

theorem spooledOn_read (f : FileStream) (T : File) (n : Nat) (h : f.spooledOn T) :
    (f.Read n).st.spooledOn T := by
  obtain ⟨ht, hover, hfile⟩ := h
  cases hp : f.peekBuff with
  | none =>
    obtain ⟨pos, hr⟩ := hfile hp
    simp only [FileStream.Read, hr, hp, Reader.Read]
    split
    · exact ⟨ht, rfl, fun _ => ⟨_, rfl⟩⟩
    · split <;> exact ⟨ht, rfl, fun _ => ⟨_, rfl⟩⟩
  | some b =>
    cases hr : f.reader with
    | nil => rw [hr] at hover; exact absurd hover (by simp [Reader.overTemp])
    | source rest => rw [hr] at hover; exact absurd hover (by simp [Reader.overTemp])
    | file t pos =>
      rw [hr] at hover
      have ht' : t = T := hover
      subst ht'
      simp only [FileStream.Read, hr, hp, Reader.Read]
      split
      · exact ⟨ht, rfl, fun _ => ⟨_, rfl⟩⟩
      · split <;> exact ⟨ht, rfl, fun _ => ⟨_, rfl⟩⟩
    | multi inner =>
      cases inner with
      | nil => rw [hr] at hover; exact absurd hover (by simp [Reader.overTemp])
      | source rest => rw [hr] at hover; exact absurd hover (by simp [Reader.overTemp])
      | multi i2 => rw [hr] at hover; exact absurd hover (by simp [Reader.overTemp])
      | file t pos =>
        rw [hr] at hover
        have ht' : t = T := hover
        subst ht'
        simp only [FileStream.Read, hr, hp, Reader.Read]
        split
        · split
          · exact ⟨ht, rfl, fun h => by cases h⟩
          · split <;> exact ⟨ht, rfl, fun h => by cases h⟩
        · exact ⟨ht, rfl, fun h => by cases h⟩

theorem allocations_close (closeOf removeAll : String → Option Err) (f : FileStream) :
    allocations (f.Close closeOf removeAll).2 = 0 := by
  have hmap : ∀ l : List String, allocations (l.map Event.close) = 0 := by
    intro l
    induction l with
    | nil => rfl
    | cons x xs _ => simp [allocations, List.filter, Event.isAllocation]
  cases ht : f.tmpFile with
  | none => simp only [FileStream.Close, Closers.Close, ht]; exact hmap _
  | some t =>
    simp only [FileStream.Close, Closers.Close, ht, allocations_append, hmap]
    rfl

theorem spooledOn_op (f : FileStream) (T : File) (o : FsOp) (h : f.spooledOn T) :
    (f.op o).1.spooledOn T ∧ allocations (f.op o).2 = 0 := by
  cases o with
  | call c =>
    refine ⟨?_, (fileStream_call_spooled f c T h.1).2⟩
    cases c with
    | cacheFull a => simp only [FileStream.op, FileStream.call, cacheFull_existing f a T h.1]; exact h
    | rangeRead a r => exact spooledOn_rangeRead f T a r h
  | read n => exact ⟨spooledOn_read f T n h, rfl⟩
  | close closeOf removeAll => exact ⟨h, allocations_close closeOf removeAll f⟩

theorem spooledOn_ops (ops : List FsOp) (f : FileStream) (T : File) (h : f.spooledOn T) :
    (f.ops ops).1.spooledOn T ∧ allocations (f.ops ops).2 = 0 := by
  induction ops generalizing f with
  | nil => exact ⟨h, rfl⟩
  | cons o rest ih =>
    obtain ⟨h1, h2⟩ := spooledOn_op f T o h
    obtain ⟨h3, h4⟩ := ih (f.op o).1 h1
    simp only [FileStream.ops, allocations_append, h2, h4]
    exact ⟨h3, trivial⟩

/-- With a temp file in place, a successful range read hands back a section of the temp file
or a section of the peek buffer. -/
theorem rangeRead_spooled_kind (f : FileStream) (T : File) (a : AllocOutcome) (r : Range)
    (rd : RangeReader) (ht : f.tmpFile = some T) (hok : (f.RangeRead a r).out = Except.ok rd) :
    (∃ off n, rd = RangeReader.sect (ReaderAt.osFile (some T)) off n) ∨
    (∃ s i off n, rd = RangeReader.sect (ReaderAt.bytes s) off n ∧
      (f.RangeRead a r).st.peekBuff = some ⟨s, i⟩) := by
  by_cases hhit : ∃ pb, f.peekBuff = some pb ∧ peekHit pb (resolveLength f.size r)
  · obtain ⟨pb, hp, hh⟩ := hhit
    rw [rangeRead_hit f a r pb hp hh] at hok ⊢
    cases hok
    exact Or.inr ⟨pb.s, pb.i, _, _, rfl, hp⟩
  · have hnohit : ∀ pb, f.peekBuff = some pb → ¬ peekHit pb (resolveLength f.size r) :=
      fun pb hp hh => hhit ⟨pb, hp, hh⟩
    by_cases hpk : (resolveLength f.size r).Start = 0 ∧
        (resolveLength f.size r).Length ≤ InMemoryBufMaxSizeBytes ∧ f.peekBuff = none
    · obtain ⟨h0, hcap, hp⟩ := hpk
      by_cases hbad : min (resolveLength f.size r).Length f.size < 0 ∨
          (f.reader.pull none (min (resolveLength f.size r).Length f.size).toNat).stop ≠ none
      · obtain ⟨e, he⟩ := rangeRead_peek_fail f a r hp h0 hcap hbad
        rw [he] at hok; cases hok
      · have hk : 0 ≤ min (resolveLength f.size r).Length f.size := by
          by_contra h; exact hbad (Or.inl (by omega))
        have hstop : (f.reader.pull none
            (min (resolveLength f.size r).Length f.size).toNat).stop = none := by
          by_contra h; exact hbad (Or.inr h)
        rw [rangeRead_peek_ok f a r hp h0 hcap hk hstop] at hok ⊢
        cases hok
        exact Or.inr ⟨_, 0, _, _, rfl, rfl⟩
    · rw [rangeRead_tmp f a r T hnohit hpk ht] at hok
      cases hok
      exact Or.inl ⟨_, _, rfl⟩

/-- C14 (the code at the failing input): `smallSpooled` is `smallStream` after the range
`{1, 1}` has materialized it: the temp file holds `[10, 20, 30]` and is the live reader. The
second branch of `RangeRead` does not look at `tmpFile`, so the range `{0, 2}` is not answered
from the temp file: two bytes are copied from the live reader into a new peek cache, the
returned reader is a section of that cache, and the live reader becomes a `MultiReader` of the
cache and the temp file. After a sequential read of one byte the copy starts at offset 1 of the
temp file, and the reader returned for `{0, 2}` yields `[20, 30]`, where a section of the temp
file yields `[10, 20]`; after a sequential read of two bytes the copy runs into the end of the
temp file and `{0, 2}` fails with `io.EOF`. -/
theorem C14_peek_branch_ignores_temp_file :
    smallSpooled.tmpFile = some ⟨"/tmp/file-1", [10, 20, 30], 0⟩ ∧
    smallSpooled.reader = Reader.file ⟨"/tmp/file-1", [10, 20, 30], 0⟩ 0 ∧
    smallSpooled.peekBuff = none ∧
    smallSpooled.RangeRead (AllocOutcome.created "/tmp/file-2") ⟨0, 2⟩
      = ⟨Except.ok (RangeReader.sect (ReaderAt.bytes [10, 20]) 0 2),
         { smallSpooled with
             peekBuff := some ⟨[10, 20], 0⟩,
             reader := Reader.multi (Reader.file ⟨"/tmp/file-1", [10, 20, 30], 0⟩ 2) },
         []⟩ ∧
    (smallSpooled.Read 1).data = [10] ∧
    (smallSpooled.Read 1).st
      = { smallSpooled with reader := Reader.file ⟨"/tmp/file-1", [10, 20, 30], 0⟩ 1 } ∧
    (smallSpooled.Read 1).st.RangeRead (AllocOutcome.created "/tmp/file-2") ⟨0, 2⟩
      = ⟨Except.ok (RangeReader.sect (ReaderAt.bytes [20, 30]) 0 2),
         { smallSpooled with
             peekBuff := some ⟨[20, 30], 0⟩,
             reader := Reader.multi (Reader.file ⟨"/tmp/file-1", [10, 20, 30], 0⟩ 3) },
         []⟩ ∧
    (RangeReader.sect (ReaderAt.bytes [20, 30]) 0 2).readAll = Except.ok [20, 30] ∧
    (RangeReader.sect (ReaderAt.osFile (some ⟨"/tmp/file-1", [10, 20, 30], 0⟩)) 0 2).readAll
      = Except.ok [10, 20] ∧
    (smallSpooled.Read 2).data = [10, 20] ∧
    (smallSpooled.Read 2).st.RangeRead (AllocOutcome.created "/tmp/file-2") ⟨0, 2⟩
      = ⟨Except.error Err.eof,
         { smallSpooled with reader := Reader.file ⟨"/tmp/file-1", [10, 20, 30], 0⟩ 3 },
         []⟩ := by
  refine ⟨rfl, rfl, rfl, rfl, rfl, rfl, rfl, rfl, rfl, rfl, rfl⟩

/-! ## The peek cache never changes -/

theorem read_peek_some (r : Reader) (b : BytesReader) (n : Nat) :
    ∃ i, (r.Read (some b) n).2.2 = some ⟨b.s, i⟩ := by
  induction r generalizing b with
  | nil => exact ⟨b.i, rfl⟩
  | source rest => simp only [Reader.Read]; split <;> exact ⟨b.i, rfl⟩
  | file f pos =>
    simp only [Reader.Read]
    split
    · exact ⟨b.i, rfl⟩
    · split <;> exact ⟨b.i, rfl⟩
  | multi inner ih =>
    simp only [Reader.Read]
    split
    · exact ih b
    · exact ⟨_, rfl⟩

theorem rangeRead_peek_some (f : FileStream) (a : AllocOutcome) (r : Range) (b : BytesReader)
    (hp : f.peekBuff = some b) : ∃ i, (f.RangeRead a r).st.peekBuff = some ⟨b.s, i⟩ := by
  by_cases hhit : peekHit b (resolveLength f.size r)
  · rw [rangeRead_hit f a r b hp hhit]; exact ⟨b.i, hp⟩
  · have hnohit : ∀ pb, f.peekBuff = some pb → ¬ peekHit pb (resolveLength f.size r) := by
      intro pb hpb; rw [hp] at hpb; cases hpb; exact hhit
    have hnopeek : ¬ ((resolveLength f.size r).Start = 0 ∧
        (resolveLength f.size r).Length ≤ InMemoryBufMaxSizeBytes ∧ f.peekBuff = none) := by
      intro h; rw [hp] at h; cases h.2.2
    cases ht : f.tmpFile with
    | some t => rw [rangeRead_tmp f a r t hnohit hnopeek ht]; exact ⟨b.i, hp⟩
    | none =>
      rw [rangeRead_spool f a r hnohit hnopeek ht]
      split <;> exact cacheFull_peek_some f a b hp

theorem op_peek_some (f : FileStream) (o : FsOp) (b : BytesReader) (hp : f.peekBuff = some b) :
    ∃ i, (f.op o).1.peekBuff = some ⟨b.s, i⟩ := by
  cases o with
  | call c =>
    cases c with
    | cacheFull a => exact cacheFull_peek_some f a b hp
    | rangeRead a r => exact rangeRead_peek_some f a r b hp
  | read n =>
    simp only [FileStream.op, FileStream.Read, hp]
    exact read_peek_some f.reader b n
  | close closeOf removeAll => exact ⟨b.i, hp⟩

theorem read_peek_none (r : Reader) (n : Nat) : (r.Read none n).2.2 = none := by
  cases r with
  | nil => rfl
  | source rest => simp only [Reader.Read]; split <;> rfl
  | file f pos =>
    simp only [Reader.Read]
    split
    · rfl
    · split <;> rfl
  | multi inner => rfl

theorem peekWithinCap_op (f : FileStream) (o : FsOp) (h : f.peekWithinCap) :
    (f.op o).1.peekWithinCap := by
  cases hp : f.peekBuff with
  | some b =>
    obtain ⟨i, hi⟩ := op_peek_some f o b hp
    intro pb hpb
    rw [hi] at hpb
    cases hpb
    exact h b hp
  | none =>
    intro pb hpb
    cases o with
    | call c =>
      cases c with
      | cacheFull a =>
        simp only [FileStream.op, FileStream.call] at hpb
        rw [cacheFull_peek_none f a hp] at hpb; cases hpb
      | rangeRead a r => exact (rangeRead_created f a r pb hp hpb).2.2.1
    | read n =>
      simp only [FileStream.op, FileStream.Read, hp, read_peek_none] at hpb
      cases hpb
    | close closeOf removeAll =>
      simp only [FileStream.op] at hpb
      rw [hp] at hpb; cases hpb

theorem peekWithinCap_ops (ops : List FsOp) (f : FileStream) (h : f.peekWithinCap) :
    (f.ops ops).1.peekWithinCap := by
  induction ops generalizing f with
  | nil => exact h
  | cons o rest ih => exact ih (f.op o).1 (peekWithinCap_op f o h)

/-- A request from offset 0 whose resolved length exceeds the cap is neither a cache hit nor a
peek: it goes to the third branch of `RangeRead`. -/
theorem rangeRead_oversized (f : FileStream) (r : Range) (hinv : f.peekWithinCap)
    (h0 : (resolveLength f.size r).Start = 0)
    (hbig : InMemoryBufMaxSizeBytes < (resolveLength f.size r).Length)
    (h64 : (resolveLength f.size r).Length < 2 ^ 63) :
    (∀ pb, f.peekBuff = some pb → ¬ peekHit pb (resolveLength f.size r)) ∧
    ¬ ((resolveLength f.size r).Start = 0 ∧
      (resolveLength f.size r).Length ≤ InMemoryBufMaxSizeBytes ∧ f.peekBuff = none) := by
  have hcapv : InMemoryBufMaxSizeBytes = 10485760 := by
    simp [InMemoryBufMaxSizeBytes, InMemoryBufMaxSize]
  constructor
  · intro pb hp hhit
    have hle := hinv pb hp
    obtain ⟨-, hb⟩ := hhit
    rw [h0, Int.zero_add, wrap64_of_bounds _ (by omega) h64,
      wrap64_of_bounds _ (by omega) (by omega)] at hb
    unfold BytesReader.Len at hb
    omega
  · intro h
    omega

/-- C18 (as stated, refuted): `fileBacked` is a stream whose reader is itself a random-access
file, with no temp file and no peek cache. The range `{0, 10485761}` starts at 0 and is longer
than 10 MiB, yet no temp file is materialized: the allocator is not called and `tmpFile` stays
nil (the reader returned is a section over that nil field, and reading it fails). -/
theorem C18_oversized_request_without_temp_file :
    fileBacked.peekBuff = none ∧ fileBacked.tmpFile = none ∧
    (resolveLength fileBacked.size ⟨0, 10485761⟩).Start = 0 ∧
    10 * 1024 * 1024 < (resolveLength fileBacked.size ⟨0, 10485761⟩).Length ∧
    fileBacked.RangeRead (AllocOutcome.created "/tmp/file-1") ⟨0, 10485761⟩
      = ⟨Except.ok (RangeReader.sect (ReaderAt.osFile none) 0 10485761), fileBacked, []⟩ ∧
    allocations (fileBacked.RangeRead (AllocOutcome.created "/tmp/file-1") ⟨0, 10485761⟩).log
      = 0 ∧
    (RangeReader.sect (ReaderAt.osFile none) 0 10485761).readAll
      = Except.error (Err.text "invalid argument") := by
  refine ⟨rfl, rfl, rfl, by decide, rfl, rfl, rfl⟩

/-- C18 (amended): starting from a stream whose peek cache (if any) is within the cap, as on
every stream without one, no sequence of range reads (with any ranges), `CacheFullInTempFile`
calls, sequential reads and `Close` makes the peek cache hold more than `10*1024*1024` bytes.
The cache a range read creates holds `min(Length, size)` bytes for that request's resolved
length. A request from offset 0 whose resolved length (an `int64`) exceeds 10 MiB creates no
peek cache and takes the temp-file branch: with a temp file in place it is answered by a
section of that file and the stream is left unchanged; with none, `CacheFullInTempFile` is
called, and on a stream whose reader is not itself a file a successful request has created the
temp file through the allocator and is answered by a section of it. On a stream whose reader is
itself a file no temp file is created: the stream is left unchanged and no collaborator is
called. -/
theorem C18_peek_cache_within_cap :
    (∀ (f : FileStream) (ops : List FsOp), f.peekWithinCap → (f.ops ops).1.peekWithinCap) ∧
    (∀ (f : FileStream) (a : AllocOutcome) (r : Range) (pb : BytesReader),
      f.peekBuff = none → (f.RangeRead a r).st.peekBuff = some pb →
      (pb.s.length : Int) = min (resolveLength f.size r).Length f.size ∧
      (pb.s.length : Int) ≤ 10 * 1024 * 1024) ∧
    (∀ (f : FileStream) (a : AllocOutcome) (r : Range), f.peekWithinCap →
      (resolveLength f.size r).Start = 0 →
      10 * 1024 * 1024 < (resolveLength f.size r).Length →
      (resolveLength f.size r).Length < 2 ^ 63 →
      (f.peekBuff = none → (f.RangeRead a r).st.peekBuff = none) ∧
      (∀ t, f.tmpFile = some t →
        f.RangeRead a r = ⟨Except.ok (RangeReader.sect (ReaderAt.osFile (some t))
          (resolveLength f.size r).Start (resolveLength f.size r).Length), f, []⟩) ∧
      (f.tmpFile = none →
        (f.RangeRead a r).st = (f.CacheFullInTempFile a).st ∧
        (f.RangeRead a r).log = (f.CacheFullInTempFile a).log ∧
        (f.reader.asFile = none → ∀ rd, (f.RangeRead a r).out = Except.ok rd →
          ∃ t, (f.RangeRead a r).st.tmpFile = some t ∧
            (f.RangeRead a r).log = [Event.createTempFile (some t)] ∧
            rd = RangeReader.sect (ReaderAt.osFile (some t))
              (resolveLength f.size r).Start (resolveLength f.size r).Length) ∧
        (∀ x, f.reader.asFile = some x →
          (f.RangeRead a r).st = f ∧ (f.RangeRead a r).log = []))) := by
  have hcapv : InMemoryBufMaxSizeBytes = 10 * 1024 * 1024 := by
    simp [InMemoryBufMaxSizeBytes, InMemoryBufMaxSize]
  refine ⟨fun f ops h => peekWithinCap_ops ops f h, ?_, ?_⟩
  · intro f a r pb hp hpb
    obtain ⟨-, h1, h2, -⟩ := rangeRead_created f a r pb hp hpb
    exact ⟨h1, hcapv ▸ h2⟩
  · intro f a r hinv h0 hbig h64
    obtain ⟨hnohit, hnopeek⟩ := rangeRead_oversized f r hinv h0 (hcapv ▸ hbig) h64
    refine ⟨?_, ?_, ?_⟩
    · intro hp
      cases ht : f.tmpFile with
      | some t => rw [rangeRead_tmp f a r t hnohit hnopeek ht]; exact hp
      | none =>
        rw [rangeRead_spool f a r hnohit hnopeek ht]
        split <;> exact cacheFull_peek_none f a hp
    · intro t ht
      exact rangeRead_tmp f a r t hnohit hnopeek ht
    · intro ht
      rw [rangeRead_spool f a r hnohit hnopeek ht]
      cases hout : (f.CacheFullInTempFile a).out with
      | error e =>
        refine ⟨rfl, rfl, ?_, ?_⟩
        · intro _ rd hrd; cases hrd
        · intro x hx; rw [cacheFull_file f a x ht hx]; exact ⟨rfl, rfl⟩
      | ok tf =>
        refine ⟨rfl, rfl, ?_, ?_⟩
        · intro hx rd hrd
          simp only [Except.ok.injEq] at hrd
          obtain ⟨nm, rfl, hstop⟩ := cacheFull_fresh_ok f a tf ht hx hout
          have hc := cacheFull_created f nm ht hx hstop
          rw [hc] at hrd ⊢
          exact ⟨_, rfl, rfl, hrd.symm⟩
        · intro x hx; rw [cacheFull_file f a x ht hx]; exact ⟨rfl, rfl⟩

theorem C18_peek_cache_within_cap_witness :
    ((([10, 20] : List Byte).length : Int) = min (resolveLength smallStream.size ⟨0, 2⟩).Length
        smallStream.size) ∧
    ((([10, 20] : List Byte).length : Int) ≤ 10 * 1024 * 1024) :=
  C18_peek_cache_within_cap.2.1 smallStream (AllocOutcome.failed Err.eof 0) ⟨0, 2⟩
    ⟨[10, 20], 0⟩ rfl rfl

/-! ## No-source errors after construction -/

theorem newSeekableStream_backed (GetMimeType : String → String)
    (GetRangeReadCloserFromLink : Int → Link → Except Err RangeReadCloser)
    (fs : FileStream) (link : Option Link) (ss : SeekableStream) (log : List Event)
    (h : NewSeekableStream GetMimeType GetRangeReadCloserFromLink fs link = (Except.ok ss, log)) :
    ss.backed := by
  unfold SeekableStream.backed
  cases hr : fs.reader.asFile with
  | some rf =>
    have hne : fs.reader ≠ Reader.nil := by
      intro h0; rw [h0] at hr; cases hr
    by_cases hmime : fs.Mimetype.length = 0 <;>
      simp [NewSeekableStream, hmime, hr] at h <;>
      obtain ⟨rfl, -⟩ := h <;> simp [hne]
  | none =>
    cases link with
    | none => by_cases hmime : fs.Mimetype.length = 0 <;> simp [NewSeekableStream, hmime, hr] at h
    | some l =>
      cases hm : l.MFile with
      | some m =>
        by_cases hmime : fs.Mimetype.length = 0 <;>
          simp [NewSeekableStream, hmime, hr, hm] at h <;>
          obtain ⟨rfl, -⟩ := h <;> simp
      | none =>
        cases hc : l.RangeReadCloser with
        | some rrc =>
          by_cases hmime : fs.Mimetype.length = 0 <;>
            simp [NewSeekableStream, hmime, hr, hm, hc] at h <;>
            obtain ⟨rfl, -⟩ := h <;> simp
        | none =>
          by_cases hu : l.URL.length > 0
          · have hu0 : l.URL.length ≠ 0 := by omega
            cases hb : GetRangeReadCloserFromLink fs.size l with
            | error err =>
              by_cases hmime : fs.Mimetype.length = 0 <;>
                simp [NewSeekableStream, hmime, hr, hm, hc, hu, hu0, hb] at h
            | ok rrc =>
              by_cases hmime : fs.Mimetype.length = 0 <;>
                simp [NewSeekableStream, hmime, hr, hm, hc, hu, hu0, hb] at h <;>
                obtain ⟨rfl, -⟩ := h <;> simp
          · have hu0 : l.URL.length = 0 := by omega
            by_cases hmime : fs.Mimetype.length = 0 <;>
              simp [NewSeekableStream, hmime, hr, hm, hc, hu, hu0] at h

theorem read_reader_ne_nil (r : Reader) (pk : Option BytesReader) (n : Nat)
    (h : r ≠ Reader.nil) : (r.Read pk n).2.1 ≠ Reader.nil := by
  cases r with
  | nil => exact absurd rfl h
  | source rest => cases pk <;> simp only [Reader.Read] <;> split <;> simp
  | file f pos =>
    cases pk <;> simp only [Reader.Read] <;> split <;> try simp
    all_goals split <;> simp
  | multi inner =>
    cases pk with
    | none => simp [Reader.Read]
    | some b => simp only [Reader.Read]; split <;> simp

theorem read_err_not_illegal (r : Reader) (pk : Option BytesReader) (n : Nat) :
    (r.Read pk n).1.2 ≠ some illegalSeekableStream := by
  induction r generalizing pk with
  | nil => cases pk <;> simp [Reader.Read, nilReaderCrash, illegalSeekableStream]
  | source rest =>
    cases pk <;> simp only [Reader.Read] <;> split <;> simp [illegalSeekableStream]
  | file f pos =>
    cases pk <;> simp only [Reader.Read] <;> split <;> try simp
    all_goals split <;> simp [illegalSeekableStream]
  | multi inner ih =>
    cases pk with
    | none => simp [Reader.Read, nilReaderCrash, illegalSeekableStream]
    | some b =>
      simp only [Reader.Read]
      split
      · exact ih (some b)
      · simp

theorem seekable_acquire_sources (ss : SeekableStream) :
    ss.acquire.2.1.mFile = ss.mFile ∧ ss.acquire.2.1.rangeReadCloser = ss.rangeReadCloser := by
  unfold SeekableStream.acquire
  split
  · split
    · exact ⟨rfl, rfl⟩
    · split <;> exact ⟨rfl, rfl⟩
  · exact ⟨rfl, rfl⟩

theorem seekable_cacheFull_sources (ss : SeekableStream) (a : AllocOutcome) :
    (ss.CacheFullInTempFile a).st.mFile = ss.mFile ∧
    (ss.CacheFullInTempFile a).st.rangeReadCloser = ss.rangeReadCloser := by
  obtain ⟨hq1, hq2⟩ := seekable_acquire_sources ss
  unfold SeekableStream.CacheFullInTempFile
  split
  · exact ⟨rfl, rfl⟩
  · split
    · exact ⟨rfl, rfl⟩
    · split
      · exact ⟨rfl, rfl⟩
      · rcases hacq : ss.acquire with ⟨early, ss1, log⟩
        rw [hacq] at hq1 hq2
        simp only [] at hq1 hq2
        rcases early with _ | _ | err
        · simp only []
          split <;> exact ⟨hq1, hq2⟩
        · exact ⟨hq1, hq2⟩
        · exact ⟨hq1, hq2⟩

theorem seekable_read_frame (ss : SeekableStream) (n : Nat) :
    (ss.Read n).st.mFile = ss.mFile ∧ (ss.Read n).st.rangeReadCloser = ss.rangeReadCloser ∧
    (ss.reader ≠ Reader.nil → (ss.Read n).st.reader ≠ Reader.nil) := by
  by_cases hr : ss.reader = Reader.nil
  · refine ⟨?_, ?_, fun h => absurd hr h⟩ <;>
    · simp only [SeekableStream.Read, SeekableStream.acquire, hr, if_true]
      split <;> (rename_i heq; split at heq <;> try split at heq) <;>
        simp only [Prod.mk.injEq] at heq <;> obtain ⟨-, rfl, -⟩ := heq <;> rfl
  · have hacq : ss.acquire = (none, ss, []) := by
      simp only [SeekableStream.acquire, hr, if_false]
    simp only [SeekableStream.Read, hacq]
    exact ⟨trivial, trivial, fun h => read_reader_ne_nil _ _ _ h⟩

theorem backed_op (ss : SeekableStream) (o : SsOp) (h : ss.backed) : (ss.op o).backed := by
  cases o with
  | cacheFull a =>
    simp only [SeekableStream.op]
    cases ht : ss.tmpFile with
    | some t => rw [seekable_cacheFull_existing ss a t ht]; exact h
    | none =>
      cases hm : ss.mFile with
      | some m => rw [seekable_cacheFull_mfile ss a m ht hm]; exact h
      | none =>
        rcases h with ⟨h1, -⟩ | h2
        · exact absurd hm h1
        · exact Or.inr (by rw [(seekable_cacheFull_sources ss a).2]; exact h2)
  | rangeRead r =>
    simp only [SeekableStream.op, (seekable_rangeRead_frame ss r).1]; exact h
  | read n =>
    simp only [SeekableStream.op]
    obtain ⟨h1, h2, h3⟩ := seekable_read_frame ss n
    rcases h with ⟨hm, hr⟩ | hc
    · exact Or.inl ⟨by rw [h1]; exact hm, h3 hr⟩
    · exact Or.inr (by rw [h2]; exact hc)

theorem backed_ops (ops : List SsOp) (ss : SeekableStream) (h : ss.backed) :
    (ss.ops ops).backed := by
  induction ops generalizing ss with
  | nil => exact h
  | cons o rest ih => exact ih (ss.op o) (backed_op ss o h)

theorem backed_rangeRead_error (ss : SeekableStream) (r : Range) (e : Err) (h : ss.backed)
    (herr : (ss.RangeRead r).out = Except.error e) :
    ∃ rrc, ss.rangeReadCloser = some rrc ∧
      rrc.respond (resolveLength ss.size r) = Except.error e ∧
      (ss.RangeRead r).log = [Event.rangeRead rrc.name (resolveLength ss.size r)] := by
  cases hm : ss.mFile with
  | some m => simp [SeekableStream.RangeRead, hm] at herr
  | none =>
    cases ht : ss.tmpFile with
    | some t => simp [SeekableStream.RangeRead, hm, ht] at herr
    | none =>
      cases hc : ss.rangeReadCloser with
      | none =>
        rcases h with ⟨h1, -⟩ | h2
        · exact absurd hm h1
        · exact absurd hc h2
      | some rrc =>
        cases hresp : rrc.respond (resolveLength ss.size r) with
        | ok body => simp [SeekableStream.RangeRead, hm, ht, hc, hresp] at herr
        | error e' =>
          simp only [SeekableStream.RangeRead, hm, ht, hc, hresp, Except.error.injEq] at herr ⊢
          exact ⟨rrc, rfl, herr ▸ hresp, rfl⟩

theorem backed_read (ss : SeekableStream) (n : Nat) (h : ss.backed) :
    (ss.Read n).err ≠ some illegalSeekableStream := by
  by_cases hr : ss.reader = Reader.nil
  · cases hc : ss.rangeReadCloser with
    | none =>
      rcases h with ⟨-, h1⟩ | h2
      · exact absurd hr h1
      · exact absurd hc h2
    | some rrc =>
      cases hresp : rrc.respond ⟨0, -1⟩ with
      | error e' => simp [SeekableStream.Read, SeekableStream.acquire, hr, hc, hresp]
      | ok body =>
        simp only [SeekableStream.Read, SeekableStream.acquire, hr, hc, hresp, if_true]
        exact read_err_not_illegal _ _ _
  · have hacq : ss.acquire = (none, ss, []) := by
      simp only [SeekableStream.acquire, hr, if_false]
    simp only [SeekableStream.Read, hacq]
    exact read_err_not_illegal _ _ _

/-- C19: on a stream returned by a successful `NewSeekableStream`, after any sequence of
`RangeRead`, `Read` and `CacheFullInTempFile` calls, `mFile` or `rangeReadCloser` is still set,
so `RangeRead` never reaches its last statement (the "can't find mFile or rangeReadCloser"
error, returned with no collaborator call): the only error it returns is the one its closer
answered with, relayed as it is. `Read` never returns the "illegal seekableStream" error. -/
theorem C19_no_source_errors_unreachable (GetMimeType : String → String)
    (GetRangeReadCloserFromLink : Int → Link → Except Err RangeReadCloser)
    (fs : FileStream) (link : Option Link) (ss : SeekableStream) (log : List Event)
    (ops : List SsOp)
    (h : NewSeekableStream GetMimeType GetRangeReadCloserFromLink fs link = (Except.ok ss, log)) :
    ((ss.ops ops).mFile ≠ none ∨ (ss.ops ops).rangeReadCloser ≠ none) ∧
    (∀ r, ¬ (((ss.ops ops).RangeRead r).out = Except.error noBackingSource ∧
        ((ss.ops ops).RangeRead r).log = [])) ∧
    (∀ r e, ((ss.ops ops).RangeRead r).out = Except.error e →
      ∃ rrc, (ss.ops ops).rangeReadCloser = some rrc ∧
        rrc.respond (resolveLength (ss.ops ops).size r) = Except.error e ∧
        ((ss.ops ops).RangeRead r).log
          = [Event.rangeRead rrc.name (resolveLength (ss.ops ops).size r)]) ∧
    (∀ n, ((ss.ops ops).Read n).err ≠ some illegalSeekableStream) := by
  have hb : (ss.ops ops).backed :=
    backed_ops ops ss
      (newSeekableStream_backed GetMimeType GetRangeReadCloserFromLink fs link ss log h)
  refine ⟨?_, ?_, fun r e herr => backed_rangeRead_error _ r e hb herr,
    fun n => backed_read _ n hb⟩
  · rcases hb with ⟨h1, -⟩ | h2
    · exact Or.inl h1
    · exact Or.inr h2
  · rintro r ⟨herr, hlog⟩
    obtain ⟨rrc, -, -, hl⟩ := backed_rangeRead_error _ r noBackingSource hb herr
    rw [hl] at hlog
    cases hlog

theorem C19_no_source_errors_unreachable_witness :
    ((adoptedStream.ops [SsOp.read 2, SsOp.rangeRead ⟨0, -1⟩]).mFile ≠ none ∨
      (adoptedStream.ops [SsOp.read 2, SsOp.rangeRead ⟨0, -1⟩]).rangeReadCloser ≠ none) ∧
    (∀ r, ¬ (((adoptedStream.ops [SsOp.read 2, SsOp.rangeRead ⟨0, -1⟩]).RangeRead r).out
          = Except.error noBackingSource ∧
        ((adoptedStream.ops [SsOp.read 2, SsOp.rangeRead ⟨0, -1⟩]).RangeRead r).log = [])) ∧
    (∀ r e, ((adoptedStream.ops [SsOp.read 2, SsOp.rangeRead ⟨0, -1⟩]).RangeRead r).out
        = Except.error e →
      ∃ rrc, (adoptedStream.ops [SsOp.read 2, SsOp.rangeRead ⟨0, -1⟩]).rangeReadCloser
          = some rrc ∧
        rrc.respond (resolveLength
          (adoptedStream.ops [SsOp.read 2, SsOp.rangeRead ⟨0, -1⟩]).size r) = Except.error e ∧
        ((adoptedStream.ops [SsOp.read 2, SsOp.rangeRead ⟨0, -1⟩]).RangeRead r).log
          = [Event.rangeRead rrc.name (resolveLength
              (adoptedStream.ops [SsOp.read 2, SsOp.rangeRead ⟨0, -1⟩]).size r)]) ∧
    (∀ n, ((adoptedStream.ops [SsOp.read 2, SsOp.rangeRead ⟨0, -1⟩]).Read n).err
      ≠ some illegalSeekableStream) :=
  C19_no_source_errors_unreachable (fun _ => "application/octet-stream")
    (fun _ _ => Except.error Err.eof) smallStream (some linkBoth) adoptedStream []
    [SsOp.read 2, SsOp.rangeRead ⟨0, -1⟩] rfl

end Alist
